import Mathlib

/-!
Shallow embedding of `src/chia/util/keychain.py` (mnemonic codec, seed
derivation, and the slot-scanning `Keychain` class).

Conventions of the embedding:
* Python `bytes` values are `List Nat` whose elements are intended to be
  `< 256`; machine arithmetic is `Nat` with explicit `% 2 ^ w`.
* `BitArray` values are `List Bool` (big-endian bit order, as in the
  `bitstring` library used by the source).
* The 2048-word BIP39 vocabulary (`english.txt`, a package resource that is
  not part of `src/`) is a bijection between words and their indices
  `0 ≤ i < 2048`; mnemonics are represented by the lists of word indices,
  and a token that is not in the vocabulary is represented by an index
  `≥ 2048`.
* Fallible Python functions (`raise ValueError`) return `Except`.
-/

/-- Big-endian bits of `n`, `k` bits wide (bit `k-1` first), as produced by
`BitArray(uint=n, length=k)`. -/
def natToBits : Nat → Nat → List Bool
  | 0, _ => []
  | k + 1, n => natToBits k (n / 2) ++ [n % 2 == 1]

/-- Value of a big-endian bit list, as `BitArray.uint`. -/
def bitsToNat (l : List Bool) : Nat :=
  l.foldl (fun a b => 2 * a + (if b then 1 else 0)) 0

/-- Big-endian base-256 digits of `n`, `k` bytes wide. -/
def natToBytesBE : Nat → Nat → List Nat
  | 0, _ => []
  | k + 1, n => natToBytesBE k (n / 256) ++ [n % 256]

/-- Split `l` into `n` consecutive chunks of size `k`. -/
def chunksOf (k : Nat) : Nat → List α → List (List α)
  | 0, _ => []
  | n + 1, l => l.take k :: chunksOf k n (l.drop k)

/-- Concatenation of `f` over a list (structural, kernel-reducible). -/
def joinMap (f : α → List β) : List α → List β
  | [] => []
  | a :: l => f a ++ joinMap f l

/-- Bit sequence of a byte string, as `BitArray(bytes)`. -/
def bytesToBits (bs : List Nat) : List Bool :=
  joinMap (natToBits 8) bs

/-! ### SHA-2 (FIPS 180-4), generic core

`std_hash` (`chia.util.hash`, not under `src/`) is SHA-256 per the spec;
`hashlib.pbkdf2_hmac("sha512", …)` is PBKDF2-HMAC-SHA-512.  Both hash
functions are instances of the common SHA-2 skeleton below. -/

/-- Right rotation of a `w`-bit word. -/
def rotr (w n x : Nat) : Nat :=
  ((x >>> n) ||| (x <<< (w - n))) % 2 ^ w

/-- Message-schedule extension: append `n` further words to `acc`. -/
def schedExt (w : Nat) (s0 s1 : Nat → Nat) : Nat → List Nat → List Nat
  | 0, acc => acc
  | n + 1, acc =>
    let t := acc.length
    let x := (s1 (acc.getD (t - 2) 0) + acc.getD (t - 7) 0 +
              s0 (acc.getD (t - 15) 0) + acc.getD (t - 16) 0) % 2 ^ w
    schedExt w s0 s1 n (acc ++ [x])

/-- One round of the SHA-2 compression loop. -/
def sha2round (w : Nat) (S0 S1 : Nat → Nat) (kt wt : Nat) (st : List Nat) :
    List Nat :=
  match st with
  | [a, b, c, d, e, f, g, h] =>
    let ch := (e &&& f) ^^^ ((e ^^^ (2 ^ w - 1)) &&& g)
    let temp1 := (h + S1 e + ch + kt + wt) % 2 ^ w
    let maj := (a &&& b) ^^^ (a &&& c) ^^^ (b &&& c)
    let temp2 := (S0 a + maj) % 2 ^ w
    [(temp1 + temp2) % 2 ^ w, a, b, c, (d + temp1) % 2 ^ w, e, f, g]
  | st => st

/-- SHA-2 compression of one block into the chaining value `H`. -/
def sha2compress (w rounds : Nat) (s0 s1 S0 S1 : Nat → Nat) (K : List Nat)
    (H block : List Nat) : List Nat :=
  let W := schedExt w s0 s1 (rounds - 16) block
  let st := (List.range rounds).foldl
    (fun st t => sha2round w S0 S1 (K.getD t 0) (W.getD t 0) st) H
  List.zipWith (fun x y => (x + y) % 2 ^ w) H st

/-- Merkle–Damgård padding: append `0x80`, zeros, and the big-endian
bit-length field. -/
def sha2pad (blockBytes lenBytes : Nat) (msg : List Nat) : List Nat :=
  let L := msg.length
  let k := (blockBytes + (blockBytes - lenBytes - 1) - L % blockBytes) % blockBytes
  msg ++ 0x80 :: (List.replicate k 0 ++ natToBytesBE lenBytes (8 * L))

/-- Big-endian word of `wBytes` bytes. -/
def bytesToWord (bs : List Nat) : Nat :=
  bs.foldl (fun a b => 256 * a + b) 0

/-- Full SHA-2 digest with word size `wBytes` bytes. -/
def sha2 (wBytes rounds blockBytes lenBytes : Nat) (s0 s1 S0 S1 : Nat → Nat)
    (K H0 : List Nat) (msg : List Nat) : List Nat :=
  let padded := sha2pad blockBytes lenBytes msg
  let words := (chunksOf wBytes (padded.length / wBytes) padded).map bytesToWord
  let blocks := chunksOf 16 (words.length / 16) words
  let Hf := blocks.foldl (sha2compress (8 * wBytes) rounds s0 s1 S0 S1 K) H0
  joinMap (natToBytesBE wBytes) Hf

/-- The `k` words of width `w` bits packed big-endian into the number
`n`, unpacked in order; used to store the SHA-2 constant tables
compactly. -/
def wordsOfNat (w k n : Nat) : List Nat :=
  (List.range k).map (fun i => n / 2 ^ (w * (k - 1 - i)) % 2 ^ w)

/-- SHA-256 round constants (FIPS 180-4: the first 32 fractional bits of
the cube roots of the first 64 primes), packed big-endian. -/
def sha256K : List Nat :=
  wordsOfNat 32 64 8399870144517823301722239222130927227141849779511242471197906795369846673996008864786532278482947930035050432913372875699354429524650716672308175015812472005008943341011247634627600705591103756174659437448007297240981034636327441933849465611186184660803773840414514428031635770391245199770927811112653141372483794982516161135727373084047811483050876080270389320947077305721183235613169389468744126235534648516788175255292025668825020963291224099932572215580391753777671218957634024159536228058522778003881673030597872562207069818177476920296259993961459554031943090626293016819766823808480230688357231269177224952050

/-- SHA-256 initial hash value (the first 32 fractional bits of the square
roots of the first 8 primes), packed big-endian. -/
def sha256H0 : List Nat :=
  wordsOfNat 32 8 47962653771679561900652889051773562940742041696833059450490514104358170316057

/-- SHA-256 digest (32 bytes) of a byte string. -/
def sha256 (msg : List Nat) : List Nat :=
  sha2 4 64 64 8
    (fun x => rotr 32 7 x ^^^ rotr 32 18 x ^^^ (x >>> 3))
    (fun x => rotr 32 17 x ^^^ rotr 32 19 x ^^^ (x >>> 10))
    (fun x => rotr 32 2 x ^^^ rotr 32 13 x ^^^ rotr 32 22 x)
    (fun x => rotr 32 6 x ^^^ rotr 32 11 x ^^^ rotr 32 25 x)
    sha256K sha256H0 msg

/-- Modelled from the spec: `std_hash` (`chia.util.hash`, not under `src/`)
is the SHA-256 digest of its input ("takes the first `CS` bits of
`SHA-256(entropy)` as checksum", spec §4.1). -/
def std_hash (msg : List Nat) : List Nat :=
  sha256 msg

/-- SHA-512 round constants (FIPS 180-4: the first 64 fractional bits of
the cube roots of the first 80 primes), packed big-endian. -/
def sha512K : List Nat :=
  wordsOfNat 64 80 48799935969327324317454573271128211996440901110400544753559103821140222242040462765270234685523415735995734265097513028069214629696127979330504410405068363803640233105338079081690014599517965252282902265922514186354389730723821336489964343756820536605654444877666242259603869016454930259399203385789115481284128692419414590607127426642313384205579347747807725147450357543486256163163363051350049773588967095775245197315559294335762735378556843320130960897574247446182386460794773627164275325009070427085921379465654990694584378776354857962470583065604196649141018181788046408836182578304651239388246191266194599170214898407978275708542313525481944943791292663188267013858047788675571291518291767397893788831357177081564947100231585314834427267038616161088749070254373879016536820179976389635834987969044592205909257778209502652317833336445460759802297511004432793915890434672386862944949451528339913580416727182718006143577694617139966621035549122068101259789798862478901707014934124919677825097134076215624466281759833855116396395425705802245089712907615744067185603897215884939925953919278825196024154999384124518734748507524409725879337338070005985029194376330341555524948417948559862415272910046531059558864624317299301013910461863067320714832076875795237158048621691629967068548530980353771592785504721687805621062678333221276735719867596878593870432314647094225182154583386567771692989139208270713419265002907666919576071253477518940519317940984776946509824148520783016083114851071853476935659681590930623782712572919435319497240041495

/-- SHA-512 initial hash value (the first 64 fractional bits of the square
roots of the first 8 primes), packed big-endian. -/
def sha512H0 : List Nat :=
  wordsOfNat 64 8 5553695886275756354114946136778835491165961296423526488018107560760635245050263663676120264669891125477075321720197875136066046164503496587506630822601081

/-- SHA-512 digest (64 bytes) of a byte string. -/
def sha512 (msg : List Nat) : List Nat :=
  sha2 8 80 128 16
    (fun x => rotr 64 1 x ^^^ rotr 64 8 x ^^^ (x >>> 7))
    (fun x => rotr 64 19 x ^^^ rotr 64 61 x ^^^ (x >>> 6))
    (fun x => rotr 64 28 x ^^^ rotr 64 34 x ^^^ rotr 64 39 x)
    (fun x => rotr 64 14 x ^^^ rotr 64 18 x ^^^ rotr 64 41 x)
    sha512K sha512H0 msg

/-! ### HMAC-SHA-512 and PBKDF2 (RFC 2104 / RFC 8018)

Reference model of the external `hashlib.pbkdf2_hmac("sha512", …)`
primitive called by `mnemonic_to_seed`. -/

/-- HMAC-SHA-512 of `msg` under `key` (RFC 2104; block size 128 bytes). -/
def hmacSha512 (key msg : List Nat) : List Nat :=
  let k0 := if 128 < key.length then sha512 key else key
  let k1 := k0 ++ List.replicate (128 - k0.length) 0
  sha512 ((k1.map (· ^^^ 0x5c)) ++ sha512 ((k1.map (· ^^^ 0x36)) ++ msg))

/-- Iterated-XOR chain of PBKDF2: `j` further HMAC iterations folded into
the accumulator. -/
def pbkdf2Chain (password : List Nat) : Nat → List Nat → List Nat → List Nat
  | 0, _, acc => acc
  | j + 1, U, acc =>
    let U' := hmacSha512 password U
    pbkdf2Chain password j U' (List.zipWith (· ^^^ ·) acc U')

/-- PBKDF2 block function `F(password, salt, c, i)` (RFC 8018 §5.2). -/
def pbkdf2F (password salt : List Nat) (c i : Nat) : List Nat :=
  let U1 := hmacSha512 password (salt ++ natToBytesBE 4 i)
  pbkdf2Chain password (c - 1) U1 U1

/-- PBKDF2-HMAC-SHA-512 with `c` iterations and `dkLen` output bytes. -/
def pbkdf2HmacSha512 (password salt : List Nat) (c dkLen : Nat) : List Nat :=
  (joinMap (fun i => pbkdf2F password salt c (i + 1))
    (List.range ((dkLen + 63) / 64))).take dkLen

/-- Model of `hashlib.pbkdf2_hmac("sha512", password, salt, c)` with the
default `dklen=None`, which yields the digest size of 64 bytes. -/
def pbkdf2_hmac (password salt : List Nat) (c : Nat) : List Nat :=
  pbkdf2HmacSha512 password salt c 64

/-! ### Mnemonic codec (`bytes_to_mnemonic`, `bytes_from_mnemonic`) -/

/-- Error taxonomy of the `ValueError`s raised by the codec
(`keychain.py` lines 121–171). -/
inductive KeychainError where
  /-- "Data length should be one of the following: [16, 20, 24, 28, 32]" -/
  | invalidEntropyLength : KeychainError
  /-- "Invalid mnemonic length" -/
  | invalidMnemonicLength : KeychainError
  /-- "'{word}' is not in the mnemonic dictionary; may be misspelled" -/
  | unknownWord : Nat → KeychainError
  /-- "Invalid order of mnemonic words" (the checksum-mismatch error) -/
  | invalidChecksum : KeychainError
  deriving DecidableEq, Repr

instance [DecidableEq ε] [DecidableEq α] : DecidableEq (Except ε α) := fun a b =>
  match a, b with
  | .ok x, .ok y =>
    if h : x = y then .isTrue (by rw [h]) else .isFalse (by intro hc; cases hc; exact h rfl)
  | .error e, .error f =>
    if h : e = f then .isTrue (by rw [h]) else .isFalse (by intro hc; cases hc; exact h rfl)
  | .ok _, .error _ => .isFalse (by intro hc; cases hc)
  | .error _, .ok _ => .isFalse (by intro hc; cases hc)

/-- `bytes_to_mnemonic` (`keychain.py` lines 120–142): entropy bytes to the
list of 11-bit word indices of the mnemonic. -/
def bytes_to_mnemonic (mnemonic_bytes : List Nat) : Except KeychainError (List Nat) :=
  if mnemonic_bytes.length ∈ [16, 20, 24, 28, 32] then
    let CS := mnemonic_bytes.length / 4
    let checksum := (bytesToBits (std_hash mnemonic_bytes)).take CS
    let bitarray := bytesToBits mnemonic_bytes ++ checksum
    .ok ((chunksOf 11 (bitarray.length / 11) bitarray).map bitsToNat)
  else .error .invalidEntropyLength

/-- `bytes_from_mnemonic` (`keychain.py` lines 145–173): word-index list of
a mnemonic back to its entropy bytes, validating the checksum. -/
def bytes_from_mnemonic (mnemonic : List Nat) : Except KeychainError (List Nat) :=
  if mnemonic.length ∈ [12, 15, 18, 21, 24] then
    match mnemonic.find? (fun w => 2048 ≤ w) with
    | some w => .error (.unknownWord w)
    | none =>
      let bit_array := joinMap (natToBits 11) mnemonic
      let CS := mnemonic.length / 3
      let ENT := mnemonic.length * 11 - CS
      let entropy_bytes := (chunksOf 8 (ENT / 8) (bit_array.take ENT)).map bitsToNat
      let checksum_bytes := bit_array.drop ENT
      let checksum := (bytesToBits (std_hash entropy_bytes)).take CS
      if checksum = checksum_bytes then .ok entropy_bytes
      else .error .invalidChecksum
  else .error .invalidMnemonicLength

/-! ### Seed derivation (`mnemonic_to_seed`) -/

/-- Codepoints of the literal salt prefix `"mnemonic"`. -/
def mnemonicSaltPrefix : List Nat :=
  [109, 110, 101, 109, 111, 110, 105, 99]

/-- `mnemonic_to_seed` (`keychain.py` lines 176–186).  `prf` is the external
`hashlib.pbkdf2_hmac("sha512", ·, ·, ·)` primitive (its reference model is
`pbkdf2_hmac` above); `norm` is the external
`unicodedata.normalize("NFKD", ·).encode("utf-8")` step, applied to the
codepoint sequences of the strings exactly where the source applies it. -/
def mnemonic_to_seed (prf : List Nat → List Nat → Nat → List Nat)
    (norm : List Nat → List Nat) (mnemonic passphrase : List Nat) : List Nat :=
  let salt_str := mnemonicSaltPrefix ++ passphrase
  let salt := norm salt_str
  let mnemonic_normalized := norm mnemonic
  prf mnemonic_normalized salt 2048

/-! ### Bit-level lemmas -/

theorem natToBits_length (k n : Nat) : (natToBits k n).length = k := by
  induction k generalizing n with
  | zero => rfl
  | succ k ih => simp [natToBits, ih]

theorem bitsToNat_append (l : List Bool) (b : Bool) :
    bitsToNat (l ++ [b]) = 2 * bitsToNat l + (if b then 1 else 0) := by
  simp [bitsToNat, List.foldl_append]

theorem bitsToNat_natToBits (k n : Nat) :
    bitsToNat (natToBits k n) = n % 2 ^ k := by
  induction k generalizing n with
  | zero => simp [natToBits, bitsToNat, Nat.mod_one]
  | succ k ih =>
    rw [natToBits, bitsToNat_append, ih]
    have hpow : 2 ^ (k + 1) = 2 * 2 ^ k := by rw [Nat.pow_succ]; ring
    rw [hpow, Nat.mod_mul]
    rcases Nat.mod_two_eq_zero_or_one n with h | h <;> simp [h] <;> omega

theorem bitsToNat_lt (bs : List Bool) : bitsToNat bs < 2 ^ bs.length := by
  induction bs using List.reverseRecOn with
  | nil => simp [bitsToNat]
  | append_singleton l b ih =>
    rw [bitsToNat_append]
    simp only [List.length_append, List.length_singleton]
    rw [Nat.pow_succ]
    cases b <;> simp <;> omega

theorem natToBits_bitsToNat (bs : List Bool) :
    natToBits bs.length (bitsToNat bs) = bs := by
  induction bs using List.reverseRecOn with
  | nil => rfl
  | append_singleton l b ih =>
    simp only [List.length_append, List.length_singleton]
    rw [natToBits, bitsToNat_append]
    have h2 : (2 * bitsToNat l + (if b then 1 else 0)) / 2 = bitsToNat l := by
      cases b <;> simp <;> omega
    have h3 : (2 * bitsToNat l + (if b then 1 else 0)) % 2 = (if b then 1 else 0) := by
      cases b <;> simp <;> omega
    rw [h2, h3, ih]
    cases b <;> simp

theorem natToBits_bitsToNat_of_length (k : Nat) (bs : List Bool) (h : bs.length = k) :
    natToBits k (bitsToNat bs) = bs := by
  subst h; exact natToBits_bitsToNat bs

theorem chunksOf_length (k n : Nat) (l : List α) :
    (chunksOf k n l).length = n := by
  induction n generalizing l with
  | zero => rfl
  | succ n ih => simp [chunksOf, ih]

theorem joinMap_length_const (f : α → List β) (c : Nat)
    (hf : ∀ a, (f a).length = c) (l : List α) :
    (joinMap f l).length = c * l.length := by
  induction l with
  | nil => simp [joinMap]
  | cons a l ih => simp [joinMap, ih, hf a, Nat.mul_succ]; omega

theorem joinMap_append (f : α → List β) (l₁ l₂ : List α) :
    joinMap f (l₁ ++ l₂) = joinMap f l₁ ++ joinMap f l₂ := by
  induction l₁ with
  | nil => simp [joinMap]
  | cons a l ih => simp [joinMap, ih]

/-- Splitting a bit string into `n` chunks of `k` and re-emitting each
chunk's value as `k` bits is the identity. -/
theorem joinMap_natToBits_chunksOf (k n : Nat) (l : List Bool)
    (hl : l.length = k * n) :
    joinMap (natToBits k) ((chunksOf k n l).map bitsToNat) = l := by
  induction n generalizing l with
  | zero => simp at hl; subst hl; rfl
  | succ n ih =>
    have hk : k ≤ l.length := by rw [hl, Nat.mul_succ]; omega
    have htake : (l.take k).length = k := by simp [Nat.min_eq_left hk]
    have hdrop : (l.drop k).length = k * n := by
      simp [List.length_drop, hl, Nat.mul_succ]
    simp only [chunksOf, List.map_cons, joinMap]
    rw [natToBits_bitsToNat_of_length k _ htake, ih _ hdrop, List.take_append_drop]

/-- Emitting each word of `ws` as `k` bits and re-chunking recovers `ws`
when every word fits in `k` bits. -/
theorem chunksOf_joinMap_natToBits (k : Nat) (ws : List Nat)
    (hw : ∀ w ∈ ws, w < 2 ^ k) :
    (chunksOf k ws.length (joinMap (natToBits k) ws)).map bitsToNat = ws := by
  induction ws with
  | nil => rfl
  | cons w ws ih =>
    simp only [List.length_cons, joinMap, chunksOf, List.map_cons]
    have hlen : (natToBits k w).length = k := natToBits_length k w
    have h1 : (natToBits k w ++ joinMap (natToBits k) ws).take k = natToBits k w :=
      List.take_left' hlen
    have h2 : (natToBits k w ++ joinMap (natToBits k) ws).drop k = joinMap (natToBits k) ws :=
      List.drop_left' hlen
    rw [h1, h2]
    simp only [List.cons.injEq]
    constructor
    · rw [bitsToNat_natToBits, Nat.mod_eq_of_lt (hw w (by simp))]
    · exact ih (fun x hx => hw x (by simp [hx]))

theorem joinMap_natToBits_length (k : Nat) (ws : List Nat) :
    (joinMap (natToBits k) ws).length = k * ws.length :=
  joinMap_length_const _ k (natToBits_length k) ws

theorem bytesToBits_length (bs : List Nat) : (bytesToBits bs).length = 8 * bs.length :=
  joinMap_natToBits_length 8 bs

/-! ### Digest-length lemmas -/

theorem natToBytesBE_length (k n : Nat) : (natToBytesBE k n).length = k := by
  induction k generalizing n with
  | zero => rfl
  | succ k ih => simp [natToBytesBE, ih]

theorem sha2round_length (w : Nat) (S0 S1 : Nat → Nat) (kt wt : Nat)
    (st : List Nat) : (sha2round w S0 S1 kt wt st).length = st.length := by
  rcases st with _ | ⟨a, _ | ⟨b, _ | ⟨c, _ | ⟨d, _ | ⟨e, _ | ⟨f, _ | ⟨g, _ | ⟨h, _ | ⟨i, t⟩⟩⟩⟩⟩⟩⟩⟩⟩ <;>
    simp [sha2round]

theorem sha2round_foldl_length (w : Nat) (S0 S1 : Nat → Nat) (K W : List Nat)
    (l : List Nat) (st : List Nat) :
    (l.foldl (fun st t => sha2round w S0 S1 (K.getD t 0) (W.getD t 0) st) st).length
      = st.length := by
  induction l generalizing st with
  | nil => rfl
  | cons t l ih => rw [List.foldl_cons, ih, sha2round_length]

theorem sha2compress_length (w rounds : Nat) (s0 s1 S0 S1 : Nat → Nat)
    (K H block : List Nat) :
    (sha2compress w rounds s0 s1 S0 S1 K H block).length = H.length := by
  unfold sha2compress
  rw [List.length_zipWith, sha2round_foldl_length]
  exact Nat.min_self _

theorem sha2compress_foldl_length (w rounds : Nat) (s0 s1 S0 S1 : Nat → Nat)
    (K : List Nat) (blocks : List (List Nat)) (H : List Nat) :
    (blocks.foldl (sha2compress w rounds s0 s1 S0 S1 K) H).length = H.length := by
  induction blocks generalizing H with
  | nil => rfl
  | cons b blocks ih => simp [List.foldl_cons, ih, sha2compress_length]

theorem sha2_length (wBytes rounds blockBytes lenBytes : Nat)
    (s0 s1 S0 S1 : Nat → Nat) (K H0 msg : List Nat) :
    (sha2 wBytes rounds blockBytes lenBytes s0 s1 S0 S1 K H0 msg).length
      = wBytes * H0.length := by
  unfold sha2
  rw [joinMap_length_const _ wBytes (natToBytesBE_length wBytes),
    sha2compress_foldl_length]

theorem sha256_length (msg : List Nat) : (sha256 msg).length = 32 := by
  rw [sha256, sha2_length]; rfl

theorem std_hash_length (msg : List Nat) : (std_hash msg).length = 32 :=
  sha256_length msg

theorem sha512_length (msg : List Nat) : (sha512 msg).length = 64 := by
  rw [sha512, sha2_length]; rfl

theorem hmacSha512_length (key msg : List Nat) :
    (hmacSha512 key msg).length = 64 := by
  unfold hmacSha512; exact sha512_length _

theorem pbkdf2Chain_length (password : List Nat) (j : Nat) (U acc : List Nat)
    (hacc : acc.length = 64) :
    (pbkdf2Chain password j U acc).length = 64 := by
  induction j generalizing U acc with
  | zero => exact hacc
  | succ j ih =>
    rw [pbkdf2Chain]
    exact ih _ _ (by simp [List.length_zipWith, hacc, hmacSha512_length])

theorem pbkdf2F_length (password salt : List Nat) (c i : Nat) :
    (pbkdf2F password salt c i).length = 64 := by
  unfold pbkdf2F
  exact pbkdf2Chain_length _ _ _ _ (hmacSha512_length _ _)

theorem pbkdf2HmacSha512_length (password salt : List Nat) (c dkLen : Nat) :
    (pbkdf2HmacSha512 password salt c dkLen).length = dkLen := by
  unfold pbkdf2HmacSha512
  rw [List.length_take, joinMap_length_const _ 64 (fun i => pbkdf2F_length password salt c (i + 1)),
    List.length_range]
  have := Nat.div_add_mod (dkLen + 63) 64
  have : dkLen ≤ 64 * ((dkLen + 63) / 64) := by omega
  omega

/-! ### Round-trip of the mnemonic codec -/

theorem chunksOf_mem_length_le (k n : Nat) (l : List α) :
    ∀ c ∈ chunksOf k n l, c.length ≤ k := by
  induction n generalizing l with
  | zero => intro c hc; cases hc
  | succ n ih =>
    intro c hc
    rcases hc with _ | hc
    · exact le_trans (List.length_take_le k l) (le_refl k)
    · exact ih _ _ (by assumption)

/-- Core of `decode ∘ encode = id`: decoding the word list produced from
valid entropy returns that entropy.  The arithmetic relations between the
entropy length `L`, checksum bit count `CS` and word count `W` are
hypotheses, discharged per valid length. -/
theorem bytes_from_mnemonic_of_encode (e : List Nat) (L CS W : Nat)
    (hL : e.length = L)
    (hbytes : ∀ b ∈ e, b < 256)
    (h2 : 8 * L + CS = 11 * W) (h3 : W / 3 = CS) (h4 : CS ≤ 256)
    (hW : W ∈ [12, 15, 18, 21, 24]) :
    bytes_from_mnemonic
      ((chunksOf 11 W (bytesToBits e ++ (bytesToBits (std_hash e)).take CS)).map bitsToNat)
      = .ok e := by
  set cs := (bytesToBits (std_hash e)).take CS with hcs
  set bits := bytesToBits e ++ cs with hbits
  have hcslen : cs.length = CS := by
    rw [hcs, List.length_take, bytesToBits_length, std_hash_length]
    omega
  have hbitslen : bits.length = 11 * W := by
    rw [hbits, List.length_append, bytesToBits_length, hL, hcslen]; omega
  set m := (chunksOf 11 W bits).map bitsToNat with hm
  have hmlen : m.length = W := by rw [hm, List.length_map, chunksOf_length]
  have hwords : ∀ x ∈ m, x < 2048 := by
    intro x hx
    rw [hm] at hx
    rcases List.mem_map.mp hx with ⟨c, hc, hcx⟩
    have : bitsToNat c < 2 ^ c.length := bitsToNat_lt c
    have hle : c.length ≤ 11 := chunksOf_mem_length_le 11 W bits c hc
    have : bitsToNat c < 2 ^ 11 :=
      lt_of_lt_of_le this (Nat.pow_le_pow_right (by norm_num) hle)
    omega
  have hfind : m.find? (fun w => 2048 ≤ w) = none := by
    rw [List.find?_eq_none]
    intro x hx
    simp [Nat.not_le]
    exact hwords x hx
  have hflat : joinMap (natToBits 11) m = bits := by
    rw [hm]
    exact joinMap_natToBits_chunksOf 11 W bits hbitslen
  have hCS : m.length / 3 = CS := by rw [hmlen, h3]
  have hmem : m.length ∈ [12, 15, 18, 21, 24] := by rw [hmlen]; exact hW
  have hblen : (bytesToBits e).length = 8 * L := by rw [bytesToBits_length, hL]
  have htake : bits.take (8 * L) = bytesToBits e := by
    rw [hbits]; exact List.take_left' hblen
  have hdrop : bits.drop (8 * L) = cs := by
    rw [hbits]; exact List.drop_left' hblen
  have hentropy :
      (chunksOf 8 (8 * L / 8) (bits.take (8 * L))).map bitsToNat = e := by
    rw [htake]
    have h8 : 8 * L / 8 = L := by omega
    rw [h8, ← hL]
    exact chunksOf_joinMap_natToBits 8 e hbytes
  rw [bytes_from_mnemonic, if_pos hmem, hfind]
  simp only [hflat, hCS]
  have hENT2 : m.length * 11 - CS = 8 * L := by rw [hmlen]; omega
  simp only [hENT2, hentropy, hdrop, ← hcs]
  rw [if_pos trivial]

/-- Core of `encode ∘ decode = id`, with the word count `W` and derived
quantities as arithmetic hypotheses. -/
theorem bytes_to_mnemonic_of_decode (m : List Nat) (L CS W : Nat)
    (hW : m.length = W)
    (hwords : ∀ x ∈ m, x < 2048)
    (h1 : W / 3 = CS) (h2 : 11 * W - CS = 8 * L) (h3 : L / 4 = CS)
    (h4 : CS ≤ 11 * W)
    (hL : L ∈ [16, 20, 24, 28, 32])
    (e : List Nat)
    (he : e = (chunksOf 8 (8 * L / 8) ((joinMap (natToBits 11) m).take (8 * L))).map bitsToNat)
    (hck : (bytesToBits (std_hash e)).take CS = (joinMap (natToBits 11) m).drop (8 * L)) :
    bytes_to_mnemonic e = .ok m := by
  set bits := joinMap (natToBits 11) m with hbits
  have hbitslen : bits.length = 11 * W := by
    rw [hbits, joinMap_natToBits_length, hW]
  have htlen : (bits.take (8 * L)).length = 8 * L := by
    rw [List.length_take, hbitslen]; omega
  have h8 : 8 * L / 8 = L := by omega
  have helen : e.length = L := by
    rw [he, List.length_map, chunksOf_length]; omega
  have hLmem : e.length ∈ [16, 20, 24, 28, 32] := by rw [helen]; exact hL
  have hebits : ∀ b ∈ e, b < 256 := by
    intro b hb
    rw [he] at hb
    rcases List.mem_map.mp hb with ⟨c, hc, hcb⟩
    have : bitsToNat c < 2 ^ c.length := bitsToNat_lt c
    have hle : c.length ≤ 8 := chunksOf_mem_length_le 8 _ _ c hc
    have : bitsToNat c < 2 ^ 8 :=
      lt_of_lt_of_le this (Nat.pow_le_pow_right (by norm_num) hle)
    omega
  have hflat : bytesToBits e = bits.take (8 * L) := by
    have : (chunksOf 8 L (bits.take (8 * L))).map bitsToNat = e := by
      rw [he, h8]
    rw [← this]
    exact joinMap_natToBits_chunksOf 8 L _ htlen
  have hCS : e.length / 4 = CS := by rw [helen, h3]
  have hbitarray : bytesToBits e ++ (bytesToBits (std_hash e)).take CS = bits := by
    rw [hflat, hck, List.take_append_drop]
  have hcount : (bytesToBits e ++ (bytesToBits (std_hash e)).take CS).length / 11 = W := by
    rw [hbitarray, hbitslen]; omega
  rw [bytes_to_mnemonic, if_pos hLmem]
  simp only [hCS, hbitarray]
  have hcount2 : bits.length / 11 = m.length := by
    rw [hbitslen, hW]; omega
  rw [hcount2]
  simp only [hbits]
  rw [chunksOf_joinMap_natToBits 11 m (by intro w hw; have := hwords w hw; omega)]

/-- Decoding the mnemonic produced by `bytes_to_mnemonic` from any valid
entropy recovers that entropy. -/
theorem bytes_from_mnemonic_after_encode (e m : List Nat)
    (hbytes : ∀ b ∈ e, b < 256)
    (hlen : e.length ∈ [16, 20, 24, 28, 32])
    (henc : bytes_to_mnemonic e = .ok m) :
    bytes_from_mnemonic m = .ok e := by
  rw [bytes_to_mnemonic, if_pos hlen] at henc
  injection henc with hm
  rw [← hm]
  have h5 : e.length = 16 ∨ e.length = 20 ∨ e.length = 24 ∨ e.length = 28 ∨
      e.length = 32 := by simpa using hlen
  have hclen : (bytesToBits e ++ (bytesToBits (std_hash e)).take (e.length / 4)).length
      = 8 * e.length + e.length / 4 := by
    rw [List.length_append, bytesToBits_length, List.length_take,
      bytesToBits_length, std_hash_length]
    omega
  rcases h5 with h | h | h | h | h <;> rw [hclen, h] <;>
    exact bytes_from_mnemonic_of_encode e _ _ _ h hbytes (by decide) (by decide)
      (by decide) (by decide)

/-- Re-encoding the entropy recovered by a successful `bytes_from_mnemonic`
reproduces the original mnemonic. -/
theorem bytes_to_mnemonic_after_decode (m e : List Nat)
    (hdec : bytes_from_mnemonic m = .ok e) :
    bytes_to_mnemonic e = .ok m := by
  simp only [bytes_from_mnemonic] at hdec
  split at hdec
  · split at hdec
    · exact Except.noConfusion hdec
    · rename_i hmem _ hfind
      split at hdec
      · rename_i hck
        injection hdec with he
        have hwords : ∀ x ∈ m, x < 2048 := by
          intro x hx
          have := List.find?_eq_none.mp hfind x hx
          simpa using this
        have h5 : m.length = 12 ∨ m.length = 15 ∨ m.length = 18 ∨
            m.length = 21 ∨ m.length = 24 := by simpa using hmem
        rcases h5 with h | h | h | h | h <;> rw [h] at hck he <;> rw [he] at hck
        · exact bytes_to_mnemonic_of_decode m 16 4 12 h hwords (by decide)
            (by decide) (by decide) (by decide) (by decide) e he.symm hck
        · exact bytes_to_mnemonic_of_decode m 20 5 15 h hwords (by decide)
            (by decide) (by decide) (by decide) (by decide) e he.symm hck
        · exact bytes_to_mnemonic_of_decode m 24 6 18 h hwords (by decide)
            (by decide) (by decide) (by decide) (by decide) e he.symm hck
        · exact bytes_to_mnemonic_of_decode m 28 7 21 h hwords (by decide)
            (by decide) (by decide) (by decide) (by decide) e he.symm hck
        · exact bytes_to_mnemonic_of_decode m 32 8 24 h hwords (by decide)
            (by decide) (by decide) (by decide) (by decide) e he.symm hck
      · exact Except.noConfusion hdec
  · exact Except.noConfusion hdec

/-- Facts recoverable from a successful decode: the word count is one of
the five valid lengths and every word index is in the vocabulary. -/
theorem bytes_from_mnemonic_ok_facts (m e : List Nat)
    (hdec : bytes_from_mnemonic m = .ok e) :
    m.length ∈ [12, 15, 18, 21, 24] ∧ ∀ x ∈ m, x < 2048 := by
  simp only [bytes_from_mnemonic] at hdec
  split at hdec
  · split at hdec
    · exact Except.noConfusion hdec
    · rename_i hmem _ hfind
      refine ⟨hmem, ?_⟩
      intro x hx
      have := List.find?_eq_none.mp hfind x hx
      simpa using this
  · exact Except.noConfusion hdec

/-- C1: round-trip law of the mnemonic codec.  For every entropy byte
sequence of length 16, 20, 24, 28 or 32, `bytes_to_mnemonic` succeeds and
`bytes_from_mnemonic` maps its output back to the entropy; and whenever
`bytes_from_mnemonic` succeeds on a mnemonic, `bytes_to_mnemonic` maps the
recovered entropy back to that mnemonic. -/
theorem C1_codec_roundtrip :
    (∀ e : List Nat, e.length ∈ [16, 20, 24, 28, 32] → (∀ b ∈ e, b < 256) →
      ∃ m, bytes_to_mnemonic e = .ok m ∧ bytes_from_mnemonic m = .ok e) ∧
    (∀ m e : List Nat, bytes_from_mnemonic m = .ok e →
      bytes_to_mnemonic e = .ok m) := by
  constructor
  · intro e hlen hbytes
    have henc : bytes_to_mnemonic e = .ok
        ((chunksOf 11
          ((bytesToBits e ++ (bytesToBits (std_hash e)).take (e.length / 4)).length / 11)
          (bytesToBits e ++ (bytesToBits (std_hash e)).take (e.length / 4))).map bitsToNat) := by
      rw [bytes_to_mnemonic, if_pos hlen]
    exact ⟨_, henc, bytes_from_mnemonic_after_encode e _ hbytes hlen henc⟩
  · exact bytes_to_mnemonic_after_decode

set_option maxRecDepth 1000000 in
/-- Witness for C1 at the all-zero 16-byte entropy and its 12-word
mnemonic. -/
theorem C1_codec_roundtrip_witness :
    (∃ m, bytes_to_mnemonic (List.replicate 16 0) = .ok m ∧
      bytes_from_mnemonic m = .ok (List.replicate 16 0)) ∧
    bytes_to_mnemonic [0, 224, 0, 0, 0, 0, 0, 0, 0, 0, 0, 0, 0, 0, 0, 0]
      = .ok [7, 0, 0, 0, 0, 0, 0, 0, 0, 0, 0, 3] :=
  ⟨C1_codec_roundtrip.1 (List.replicate 16 0) (by decide) (by decide),
   C1_codec_roundtrip.2 [7, 0, 0, 0, 0, 0, 0, 0, 0, 0, 0, 3]
     [0, 224, 0, 0, 0, 0, 0, 0, 0, 0, 0, 0, 0, 0, 0, 0] (by decide)⟩

/-- When the length and all word indices are valid, the only error
`bytes_from_mnemonic` can raise is the checksum mismatch. -/
theorem bytes_from_mnemonic_error_is_checksum (m : List Nat)
    (hmem : m.length ∈ [12, 15, 18, 21, 24]) (hwords : ∀ x ∈ m, x < 2048)
    (err : KeychainError) (h : bytes_from_mnemonic m = .error err) :
    err = .invalidChecksum := by
  simp only [bytes_from_mnemonic] at h
  rw [if_pos hmem] at h
  split at h
  · rename_i w hw
    have hwm : w ∈ m := List.mem_of_find?_eq_some hw
    have := List.find?_some hw
    have := hwords w hwm
    simp at *
    omega
  · split at h
    · exact Except.noConfusion h
    · injection h with h
      exact h.symm

/-- C8 (amended): replacing a single word of a checksum-valid mnemonic by a
different vocabulary word either fails with the invalid-checksum error or
decodes to an entropy different from the original; it is never accepted as
the same entropy, but it is not guaranteed to fail. -/
theorem C8_single_word_change (m e : List Nat) (i w : Nat)
    (hdec : bytes_from_mnemonic m = .ok e)
    (hi : i < m.length) (hw : w < 2048) (hne : w ≠ m[i]) :
    bytes_from_mnemonic (m.set i w) = .error .invalidChecksum ∨
    ∃ e', bytes_from_mnemonic (m.set i w) = .ok e' ∧ e' ≠ e := by
  obtain ⟨hmem, hwords⟩ := bytes_from_mnemonic_ok_facts m e hdec
  have hlen' : (m.set i w).length = m.length := List.length_set m i w
  have hmem' : (m.set i w).length ∈ [12, 15, 18, 21, 24] := by
    rw [hlen']; exact hmem
  have hwords' : ∀ x ∈ m.set i w, x < 2048 := by
    intro x hx
    rcases List.mem_or_eq_of_mem_set hx with h | h
    · exact hwords x h
    · omega
  cases hres : bytes_from_mnemonic (m.set i w) with
  | error err =>
    left
    rw [bytes_from_mnemonic_error_is_checksum (m.set i w) hmem' hwords' err hres]
  | ok e' =>
    right
    refine ⟨e', rfl, ?_⟩
    intro heq
    rw [heq] at hres
    have h1 : bytes_to_mnemonic e = .ok m := bytes_to_mnemonic_after_decode m e hdec
    have h2 : bytes_to_mnemonic e = .ok (m.set i w) :=
      bytes_to_mnemonic_after_decode (m.set i w) e hres
    rw [h1] at h2
    injection h2 with h3
    have h4 : (m.set i w)[i]? = some w := List.getElem?_set_self hi
    rw [← h3] at h4
    rw [List.getElem?_eq_getElem hi] at h4
    injection h4 with h6
    exact hne h6.symm

set_option maxRecDepth 1000000 in
/-- Counterexample to C8 as stated: `[0×11, 3]` is a checksum-valid
12-word mnemonic, and replacing its first word by vocabulary word 7
(without recomputing the checksum) yields a mnemonic that still decodes
successfully instead of failing with the invalid-checksum error. -/
theorem C8_counterexample :
    bytes_from_mnemonic [0, 0, 0, 0, 0, 0, 0, 0, 0, 0, 0, 3]
        = .ok (List.replicate 16 0) ∧
    [0, 0, 0, 0, 0, 0, 0, 0, 0, 0, 0, 3].set 0 7
        = [7, 0, 0, 0, 0, 0, 0, 0, 0, 0, 0, 3] ∧
    (7 : Nat) < 2048 ∧ (7 : Nat) ≠ 0 ∧
    bytes_from_mnemonic [7, 0, 0, 0, 0, 0, 0, 0, 0, 0, 0, 3]
        = .ok [0, 224, 0, 0, 0, 0, 0, 0, 0, 0, 0, 0, 0, 0, 0, 0] := by
  refine ⟨by decide, by decide, by decide, by decide, by decide⟩

set_option maxRecDepth 1000000 in
/-- Witness for the amended C8 at the all-zero mnemonic with word 0
replaced by word 7. -/
theorem C8_single_word_change_witness :
    bytes_from_mnemonic ([0, 0, 0, 0, 0, 0, 0, 0, 0, 0, 0, 3].set 0 7)
        = .error .invalidChecksum ∨
    ∃ e', bytes_from_mnemonic ([0, 0, 0, 0, 0, 0, 0, 0, 0, 0, 0, 3].set 0 7)
        = .ok e' ∧ e' ≠ List.replicate 16 0 :=
  C8_single_word_change [0, 0, 0, 0, 0, 0, 0, 0, 0, 0, 0, 3]
    (List.replicate 16 0) 0 7 (by decide) (by decide) (by decide) (by decide)

/-! ### C5: seed derivation -/

/-- Spec-side definition of the seed derivation (spec §4.2, stated from the
spec's words for comparison with the source's `mnemonic_to_seed`):
`PBKDF2-HMAC-SHA512(password = normalized mnemonic, salt = normalized
("mnemonic" + passphrase), iterations = 2048, output_len = 64)`. -/
def seedDerivationSpec (norm : List Nat → List Nat)
    (mnemonic passphrase : List Nat) : List Nat :=
  pbkdf2HmacSha512 (norm mnemonic) (norm (mnemonicSaltPrefix ++ passphrase)) 2048 64

/-- C5: `mnemonic_to_seed` applied to the PBKDF2-HMAC-SHA-512 primitive is
exactly the spec's PBKDF2 derivation (password = normalized mnemonic, salt
= normalized "mnemonic"+passphrase, 2048 iterations, 64 bytes); its result
always has 64 bytes; and identical inputs give identical outputs. -/
theorem C5_seed_derivation (norm : List Nat → List Nat) (m p : List Nat) :
    mnemonic_to_seed pbkdf2_hmac norm m p = seedDerivationSpec norm m p ∧
    (mnemonic_to_seed pbkdf2_hmac norm m p).length = 64 ∧
    (∀ m' p', m' = m → p' = p →
      mnemonic_to_seed pbkdf2_hmac norm m' p' = mnemonic_to_seed pbkdf2_hmac norm m p) := by
  refine ⟨rfl, ?_, ?_⟩
  · exact pbkdf2HmacSha512_length _ _ _ _
  · intro m' p' hm hp
    rw [hm, hp]

/-- Witness for C5 at a concrete normalization and concrete inputs. -/
theorem C5_seed_derivation_witness :
    (mnemonic_to_seed pbkdf2_hmac id [97, 98, 99] [120]).length = 64 ∧
    mnemonic_to_seed pbkdf2_hmac id [97, 98, 99] [120]
      = mnemonic_to_seed pbkdf2_hmac id [97, 98, 99] [120] :=
  ⟨(C5_seed_derivation id [97, 98, 99] [120]).2.1,
   (C5_seed_derivation id [97, 98, 99] [120]).2.2 [97, 98, 99] [120] rfl rfl⟩

/-! ### The `Keychain` class

The keychain is parameterized by its external collaborators, collected in
`Externals`: the BLS primitive of `blspy`, the vocabulary resource, Unicode
normalization and the PBKDF2 primitive.  The slot store is the view of the
external `KeyringWrapper` store on one keychain namespace: index `i`
stands for the user string `wallet-<user>[-test]-<i>` (the naming is
injective in `i`), and a stored value is the byte string that
`bytes.fromhex` recovers from the stored hex string. -/

/-- `MAX_KEYS` (`keychain.py` line 22). -/
def MAX_KEYS : Nat := 100

/-- One keychain namespace of the external store. -/
def Store : Type := Nat → Option (List Nat)

/-- `KeyringWrapper.set_password` on this namespace. -/
def storeSet (s : Store) (i : Nat) (v : List Nat) : Store :=
  fun j => if j = i then some v else s j

/-- `KeyringWrapper.delete_password` on this namespace (successful case). -/
def storeDelete (s : Store) (i : Nat) : Store :=
  fun j => if j = i then none else s j

/-- External primitives used by the `Keychain` class; `PK` and `G1` are
the types of `blspy.PrivateKey` and `blspy.G1Element`. -/
structure Externals (PK G1 : Type) where
  /-- codepoints of the vocabulary word with index `i` (`english.txt`) -/
  wordStr : Nat → List Nat
  /-- `unicodedata.normalize("NFKD", ·).encode("utf-8")` -/
  norm : List Nat → List Nat
  /-- `hashlib.pbkdf2_hmac("sha512", password, salt, iterations)`; its
  reference model is `pbkdf2_hmac` -/
  prf : List Nat → List Nat → Nat → List Nat
  /-- `AugSchemeMPL.key_gen(seed)` -/
  keyGen : List Nat → PK
  /-- `PrivateKey.get_g1()` -/
  g1 : PK → G1
  /-- `G1Element.get_fingerprint()` -/
  fingerprint : G1 → Nat
  /-- `bytes(G1Element)` -/
  g1Bytes : G1 → List Nat
  /-- `G1Element.from_bytes` -/
  g1FromBytes : List Nat → G1
  /-- `G1Element.SIZE` (48 in blspy) -/
  g1Size : Nat
  /-- python `==` on `G1Element` -/
  g1Eq : G1 → G1 → Bool

variable {PK G1 : Type}

/-- `Keychain._get_pk_and_entropy` (lines 216–230): split a stored blob
into public-key prefix and entropy suffix; empty or absent means
unoccupied. -/
def get_pk_and_entropy (E : Externals PK G1) (s : Store) (i : Nat) :
    Option (G1 × List Nat) :=
  match s i with
  | none => none
  | some b =>
    if b.length = 0 then none
    else some (E.g1FromBytes (b.take E.g1Size), b.drop E.g1Size)

/-- The codepoint string `" ".join(words)` returned by the source's
`bytes_to_mnemonic`, under the vocabulary `E.wordStr`. -/
def joinWords (E : Externals PK G1) (ws : List Nat) : List Nat :=
  List.intercalate [32] (ws.map E.wordStr)

/-- Key regenerated from stored entropy and a candidate passphrase, as the
lookup loops do: `AugSchemeMPL.key_gen(mnemonic_to_seed(bytes_to_mnemonic(
ent), pp))`; fails when the entropy does not re-encode. -/
def regenKey (E : Externals PK G1) (ent pp : List Nat) : Except KeychainError PK :=
  match bytes_to_mnemonic ent with
  | .error err => .error err
  | .ok words => .ok (E.keyGen (mnemonic_to_seed E.prf E.norm (joinWords E words) pp))

/-- Inner passphrase loop of `get_first_private_key` /
`get_all_private_keys` (lines 286–291): first candidate whose regenerated
public key equals the stored one. -/
def tryPassphrases (E : Externals PK G1) (pk : G1) (ent : List Nat) :
    List (List Nat) → Except KeychainError (Option PK)
  | [] => .ok none
  | pp :: rest =>
    match regenKey E ent pp with
    | .error err => .error err
    | .ok key =>
      if E.g1Eq (E.g1 key) pk then .ok (some key)
      else tryPassphrases E pk ent rest

/-- Inner passphrase loop of `get_private_key_by_fingerprint`
(lines 307–312): the acceptance test compares the stored key's fingerprint
with the target and does not involve the candidate passphrase. -/
def tryPassphrasesByFp (E : Externals PK G1) (fp : Nat) (pk : G1) (ent : List Nat) :
    List (List Nat) → Except KeychainError (Option PK)
  | [] => .ok none
  | pp :: rest =>
    match regenKey E ent pp with
    | .error err => .error err
    | .ok key =>
      if E.fingerprint pk = fp then .ok (some key)
      else tryPassphrasesByFp E fp pk ent rest

/-- Inner passphrase loop of `get_all_private_keys` (lines 329–334): all
candidates whose regenerated public key equals the stored one, in order. -/
def collectPassphrases (E : Externals PK G1) (pk : G1) (ent : List Nat) :
    List (List Nat) → Except KeychainError (List (PK × List Nat))
  | [] => .ok []
  | pp :: rest =>
    match regenKey E ent pp with
    | .error err => .error err
    | .ok key =>
      match collectPassphrases E pk ent rest with
      | .error err => .error err
      | .ok more =>
        if E.g1Eq (E.g1 key) pk then .ok ((key, ent) :: more)
        else .ok more

/-! Each scan loop below mirrors the source's

```
index = 0
pkent = read(index)
while index <= MAX_KEYS:
    <body>
    index += 1
    pkent = read(index)
```

with `fuel = MAX_KEYS + 1 - index` counting the remaining iterations.
Every operation returns, along with its result, the list of slot indices
it read from the store (its store round-trips); the wrapper prepends the
initial read of index 0. -/

/-- Loop of `Keychain.get_first_private_key` (lines 277–294). -/
def get_first_private_key_loop (E : Externals PK G1) (s : Store)
    (pps : List (List Nat)) :
    Nat → Nat → Option (G1 × List Nat) →
    Except KeychainError (Option (PK × List Nat)) × List Nat
  | 0, _, _ => (.ok none, [])
  | fuel + 1, index, pkent =>
    let r := get_first_private_key_loop E s pps fuel (index + 1)
      (get_pk_and_entropy E s (index + 1))
    match pkent with
    | none => (r.1, (index + 1) :: r.2)
    | some (pk, ent) =>
      match tryPassphrases E pk ent pps with
      | .error err => (.error err, [])
      | .ok (some key) => (.ok (some (key, ent)), [])
      | .ok none => (r.1, (index + 1) :: r.2)

/-- `Keychain.get_first_private_key` (lines 277–294), with its read
trace. -/
def get_first_private_key (E : Externals PK G1) (s : Store)
    (pps : List (List Nat)) :
    Except KeychainError (Option (PK × List Nat)) × List Nat :=
  let r := get_first_private_key_loop E s pps (MAX_KEYS + 1) 0
    (get_pk_and_entropy E s 0)
  (r.1, 0 :: r.2)

/-- Loop of `Keychain.get_private_key_by_fingerprint` (lines 296–315). -/
def get_private_key_by_fingerprint_loop (E : Externals PK G1) (s : Store)
    (fp : Nat) (pps : List (List Nat)) :
    Nat → Nat → Option (G1 × List Nat) →
    Except KeychainError (Option (PK × List Nat)) × List Nat
  | 0, _, _ => (.ok none, [])
  | fuel + 1, index, pkent =>
    let r := get_private_key_by_fingerprint_loop E s fp pps fuel (index + 1)
      (get_pk_and_entropy E s (index + 1))
    match pkent with
    | none => (r.1, (index + 1) :: r.2)
    | some (pk, ent) =>
      match tryPassphrasesByFp E fp pk ent pps with
      | .error err => (.error err, [])
      | .ok (some key) => (.ok (some (key, ent)), [])
      | .ok none => (r.1, (index + 1) :: r.2)

/-- `Keychain.get_private_key_by_fingerprint` (lines 296–315). -/
def get_private_key_by_fingerprint (E : Externals PK G1) (s : Store)
    (fp : Nat) (pps : List (List Nat)) :
    Except KeychainError (Option (PK × List Nat)) × List Nat :=
  let r := get_private_key_by_fingerprint_loop E s fp pps (MAX_KEYS + 1) 0
    (get_pk_and_entropy E s 0)
  (r.1, 0 :: r.2)

/-- Loop of `Keychain.get_all_private_keys` (lines 317–337). -/
def get_all_private_keys_loop (E : Externals PK G1) (s : Store)
    (pps : List (List Nat)) :
    Nat → Nat → Option (G1 × List Nat) →
    Except KeychainError (List (PK × List Nat)) × List Nat
  | 0, _, _ => (.ok [], [])
  | fuel + 1, index, pkent =>
    let r := get_all_private_keys_loop E s pps fuel (index + 1)
      (get_pk_and_entropy E s (index + 1))
    match pkent with
    | none => (r.1, (index + 1) :: r.2)
    | some (pk, ent) =>
      match collectPassphrases E pk ent pps with
      | .error err => (.error err, [])
      | .ok found => (r.1.map (fun rest => found ++ rest), (index + 1) :: r.2)

/-- `Keychain.get_all_private_keys` (lines 317–337). -/
def get_all_private_keys (E : Externals PK G1) (s : Store)
    (pps : List (List Nat)) :
    Except KeychainError (List (PK × List Nat)) × List Nat :=
  let r := get_all_private_keys_loop E s pps (MAX_KEYS + 1) 0
    (get_pk_and_entropy E s 0)
  (r.1, 0 :: r.2)

/-- Loop of `Keychain.get_all_public_keys` (lines 339–353). -/
def get_all_public_keys_loop (E : Externals PK G1) (s : Store) :
    Nat → Nat → Option (G1 × List Nat) → List G1 × List Nat
  | 0, _, _ => ([], [])
  | fuel + 1, index, pkent =>
    let r := get_all_public_keys_loop E s fuel (index + 1)
      (get_pk_and_entropy E s (index + 1))
    match pkent with
    | none => (r.1, (index + 1) :: r.2)
    | some (pk, _) => (pk :: r.1, (index + 1) :: r.2)

/-- `Keychain.get_all_public_keys` (lines 339–353). -/
def get_all_public_keys (E : Externals PK G1) (s : Store) :
    List G1 × List Nat :=
  let r := get_all_public_keys_loop E s (MAX_KEYS + 1) 0
    (get_pk_and_entropy E s 0)
  (r.1, 0 :: r.2)

/-- Loop of `Keychain.get_first_public_key` (lines 355–367). -/
def get_first_public_key_loop (E : Externals PK G1) (s : Store) :
    Nat → Nat → Option (G1 × List Nat) → Option G1 × List Nat
  | 0, _, _ => (none, [])
  | fuel + 1, index, pkent =>
    match pkent with
    | some (pk, _) => (some pk, [])
    | none =>
      let r := get_first_public_key_loop E s fuel (index + 1)
        (get_pk_and_entropy E s (index + 1))
      (r.1, (index + 1) :: r.2)

/-- `Keychain.get_first_public_key` (lines 355–367). -/
def get_first_public_key (E : Externals PK G1) (s : Store) :
    Option G1 × List Nat :=
  let r := get_first_public_key_loop E s (MAX_KEYS + 1) 0
    (get_pk_and_entropy E s 0)
  (r.1, 0 :: r.2)

/-- Loop of `Keychain.delete_key_by_fingerprint` (lines 369–384).  The
slot value for the current index is read from the evolving store at the
top of the iteration; this is the same value the source reads at the
bottom of the previous iteration, because the delete issued in between
touches a different index. -/
def delete_key_by_fingerprint_loop (E : Externals PK G1) (fp : Nat) :
    Nat → Nat → Store → Store × List Nat
  | 0, _, s => (s, [])
  | fuel + 1, index, s =>
    let s' := match get_pk_and_entropy E s index with
      | some (pk, _) => if E.fingerprint pk = fp then storeDelete s index else s
      | none => s
    let r := delete_key_by_fingerprint_loop E fp fuel (index + 1) s'
    (r.1, (index + 1) :: r.2)

/-- `Keychain.delete_key_by_fingerprint` (lines 369–384): returns the
resulting store. -/
def delete_key_by_fingerprint (E : Externals PK G1) (s : Store) (fp : Nat) :
    Store × List Nat :=
  let r := delete_key_by_fingerprint_loop E fp (MAX_KEYS + 1) 0 s
  (r.1, 0 :: r.2)

/-- `Keychain._get_free_private_key_index` (lines 241–251): unbounded
upward scan for the first unoccupied slot; `none` models the
non-termination that occurs when `fuel` slots starting at `index` are all
occupied. -/
def get_free_private_key_index (E : Externals PK G1) (s : Store) :
    Nat → Nat → Option Nat
  | 0, _ => none
  | fuel + 1, index =>
    match get_pk_and_entropy E s index with
    | none => some index
    | some _ => get_free_private_key_index E s fuel (index + 1)

/-- `Keychain.add_private_key` (lines 253–275).  The mnemonic is given as
its word-index list; the seed is derived from its `" ".join` codepoint
string.  Returns the updated store and the key, `none` when the free-slot
scan runs out of fuel. -/
def add_private_key (E : Externals PK G1) (s : Store)
    (mnemonic pp : List Nat) (fuel : Nat) :
    Except KeychainError (Option (Store × PK)) :=
  let seed := mnemonic_to_seed E.prf E.norm (joinWords E mnemonic) pp
  match bytes_from_mnemonic mnemonic with
  | .error err => .error err
  | .ok entropy =>
    match get_free_private_key_index E s fuel 0 with
    | none => .ok none
    | some index =>
      let key := E.keyGen seed
      let fp := E.fingerprint (E.g1 key)
      if fp ∈ (get_all_public_keys E s).1.map E.fingerprint then
        .ok (some (s, key))
      else
        .ok (some (storeSet s index (E.g1Bytes (E.g1 key) ++ entropy), key))

/-- One loop of `Keychain.delete_all_keys` (lines 391–407 / 412–427):
read the slot, issue a delete regardless of occupancy (`raises` tells
whether the underlying store raises on deleting an absent slot; the
exception is swallowed into the sticky `exc` flag), and stop at the first
index past `MAX_KEYS` at which the slot was empty or some delete had
failed.  `none` models non-termination (fuel exhausted). -/
def delete_all_loop (E : Externals PK G1) (raises : Bool) :
    Nat → Nat → Bool → Store → Option Store
  | 0, _, _, _ => none
  | fuel + 1, index, exc, s =>
    let pkent := get_pk_and_entropy E s index
    let exc' := exc || (raises && (s index).isNone)
    let s' := storeDelete s index
    if (pkent.isNone || exc') && decide (MAX_KEYS < index) then some s'
    else delete_all_loop E raises fuel (index + 1) exc' s'

/-- `Keychain.delete_all_keys` (lines 386–427): two sequential wipe
loops; the second starts with `delete_exception = True` (line 410). -/
def delete_all_keys (E : Externals PK G1) (raises : Bool) (s : Store)
    (fuel : Nat) : Option Store :=
  match delete_all_loop E raises fuel 0 false s with
  | none => none
  | some s1 => delete_all_loop E raises fuel 0 true s1

/-! ### A concrete instantiation of the external primitives

`testExternals` instantiates `Externals` with simple computable functions
satisfying the structural properties of the real collaborators that the
theorems below assume (serialized public keys have length `g1Size`,
`g1FromBytes` inverts `g1Bytes`, `g1Eq` is reflexive); it is used to
exhibit concrete runs of the keychain. -/

/-- Test instantiation: `PK` is the 64-byte seed itself, `G1` its first 48
bytes. -/
def testExternals : Externals (List Nat) (List Nat) :=
  ⟨fun i => [i], id,
   fun pw salt _ => ((pw ++ salt) ++ List.replicate 64 0).take 64,
   id,
   fun k => (k ++ List.replicate 48 0).take 48,
   bytesToWord, id, id, 48, fun a b => a == b⟩

/-- The store with no occupied slot. -/
def emptyStore : Store := fun _ => none

/-! ### Characterizations of the scan loops -/

/-- The key the lookup loops regenerate from re-encoded words `ws` and
candidate passphrase `pp`. -/
def regenFromWords (E : Externals PK G1) (ws pp : List Nat) : PK :=
  E.keyGen (mnemonic_to_seed E.prf E.norm (joinWords E ws) pp)

/-- Acceptance test of the pk-confirming lookups: the regenerated public
key equals the stored one. -/
def ppMatches (E : Externals PK G1) (pk : G1) (ws pp : List Nat) : Bool :=
  E.g1Eq (E.g1 (regenFromWords E ws pp)) pk

theorem regenKey_of_encode (E : Externals PK G1) (ent pp ws : List Nat)
    (henc : bytes_to_mnemonic ent = .ok ws) :
    regenKey E ent pp = .ok (regenFromWords E ws pp) := by
  unfold regenKey
  rw [henc]
  rfl

theorem tryPassphrases_of_encode (E : Externals PK G1) (pk : G1)
    (ent ws : List Nat) (henc : bytes_to_mnemonic ent = .ok ws) :
    ∀ pps, tryPassphrases E pk ent pps =
      .ok ((pps.find? (ppMatches E pk ws)).map (regenFromWords E ws)) := by
  intro pps
  induction pps with
  | nil => rfl
  | cons pp rest ih =>
    rw [tryPassphrases, regenKey_of_encode E ent pp ws henc]
    cases hb : E.g1Eq (E.g1 (regenFromWords E ws pp)) pk <;>
      simp [hb, ih, List.find?_cons, ppMatches]

theorem tryPassphrasesByFp_of_encode (E : Externals PK G1) (fp : Nat)
    (pk : G1) (ent ws : List Nat) (henc : bytes_to_mnemonic ent = .ok ws) :
    ∀ pps, tryPassphrasesByFp E fp pk ent pps =
      .ok (match pps with
           | [] => none
           | pp :: _ =>
             if E.fingerprint pk = fp then some (regenFromWords E ws pp)
             else none) := by
  intro pps
  induction pps with
  | nil => rfl
  | cons pp rest ih =>
    rw [tryPassphrasesByFp, regenKey_of_encode E ent pp ws henc]
    by_cases h : E.fingerprint pk = fp
    · simp [h]
    · simp only [if_neg h]
      rw [ih]
      cases rest <;> simp [h]

theorem collectPassphrases_of_encode (E : Externals PK G1) (pk : G1)
    (ent ws : List Nat) (henc : bytes_to_mnemonic ent = .ok ws) :
    ∀ pps, collectPassphrases E pk ent pps =
      .ok (((pps.filter (ppMatches E pk ws)).map
        (fun pp => (regenFromWords E ws pp, ent)))) := by
  intro pps
  induction pps with
  | nil => rfl
  | cons pp rest ih =>
    rw [collectPassphrases, regenKey_of_encode E ent pp ws henc, ih]
    cases hb : E.g1Eq (E.g1 (regenFromWords E ws pp)) pk <;>
      simp [hb, ppMatches, List.filter_cons]

theorem head?_filter_eq_find? (p : α → Bool) (l : List α) :
    (l.filter p).head? = l.find? p := by
  induction l with
  | nil => rfl
  | cons a l ih =>
    rw [List.filter_cons, List.find?_cons]
    cases hp : p a
    · simpa using ih
    · simp

/-- Well-formedness of one namespace: the entropy part of every occupied
slot re-encodes to a mnemonic (its length is one of the five valid ones),
so the lookup loops raise no exception. -/
def EntropiesEncode (E : Externals PK G1) (s : Store) : Prop :=
  ∀ i pk ent, get_pk_and_entropy E s i = some (pk, ent) →
    ∃ ws, bytes_to_mnemonic ent = .ok ws

/-- Reference enumeration: parsed records of the slots `idxs`, in order. -/
def slotRecords (E : Externals PK G1) (s : Store) (idxs : List Nat) :
    List (G1 × List Nat) :=
  idxs.filterMap (get_pk_and_entropy E s)

/-- Reference result of `get_all_private_keys` over the slots `idxs`: for
each occupied slot, one `(regenerated key, entropy)` pair per accepted
candidate passphrase, in slot order then candidate order. -/
def slotPrivateKeys (E : Externals PK G1) (s : Store) (pps : List (List Nat))
    (idxs : List Nat) : List (PK × List Nat) :=
  joinMap (fun i =>
    match get_pk_and_entropy E s i with
    | none => []
    | some (pk, ent) =>
      match bytes_to_mnemonic ent with
      | .error _ => []
      | .ok ws =>
        (pps.filter (ppMatches E pk ws)).map
          (fun pp => (regenFromWords E ws pp, ent))) idxs

/-- Reference result of `get_private_key_by_fingerprint` over the slots
`idxs`: an occupied slot is accepted when the stored key's fingerprint
equals the target and the candidate list is nonempty, yielding the key
derived from the first candidate passphrase. -/
def slotFpHits (E : Externals PK G1) (s : Store) (fp : Nat)
    (pps : List (List Nat)) (idxs : List Nat) : List (PK × List Nat) :=
  joinMap (fun i =>
    match get_pk_and_entropy E s i with
    | none => []
    | some (pk, ent) =>
      match bytes_to_mnemonic ent with
      | .error _ => []
      | .ok ws =>
        match pps with
        | [] => []
        | pp :: _ =>
          if E.fingerprint pk = fp then [(regenFromWords E ws pp, ent)]
          else []) idxs

theorem get_all_public_keys_loop_spec (E : Externals PK G1) (s : Store) :
    ∀ fuel index,
      get_all_public_keys_loop E s fuel index (get_pk_and_entropy E s index) =
        ((slotRecords E s (List.range' index fuel)).map Prod.fst,
         List.range' (index + 1) fuel) := by
  intro fuel
  induction fuel with
  | zero => intro index; rfl
  | succ fuel ih =>
    intro index
    rcases hp : get_pk_and_entropy E s index with _ | ⟨pk, ent⟩ <;>
      simp only [get_all_public_keys_loop, ih (index + 1), List.range'_succ,
        slotRecords, List.filterMap_cons, hp] <;>
      simp [slotRecords]

theorem get_all_public_keys_spec (E : Externals PK G1) (s : Store) :
    get_all_public_keys E s =
      ((slotRecords E s (List.range' 0 (MAX_KEYS + 1))).map Prod.fst,
       List.range' 0 (MAX_KEYS + 2)) := by
  rw [get_all_public_keys, get_all_public_keys_loop_spec]
  have h : List.range' 0 (MAX_KEYS + 2) = 0 :: List.range' 1 (MAX_KEYS + 1) :=
    List.range'_succ 0 (MAX_KEYS + 1) 1
  rw [h]

theorem get_all_private_keys_loop_spec (E : Externals PK G1) (s : Store)
    (pps : List (List Nat)) (hwf : EntropiesEncode E s) :
    ∀ fuel index,
      get_all_private_keys_loop E s pps fuel index (get_pk_and_entropy E s index) =
        (.ok (slotPrivateKeys E s pps (List.range' index fuel)),
         List.range' (index + 1) fuel) := by
  intro fuel
  induction fuel with
  | zero => intro index; rfl
  | succ fuel ih =>
    intro index
    rcases hp : get_pk_and_entropy E s index with _ | ⟨pk, ent⟩
    · simp only [get_all_private_keys_loop, ih (index + 1), List.range'_succ,
        slotPrivateKeys, joinMap, hp]
      simp [slotPrivateKeys]
    · obtain ⟨ws, hws⟩ := hwf index pk ent hp
      simp only [get_all_private_keys_loop, ih (index + 1), List.range'_succ,
        slotPrivateKeys, joinMap, hp, hws,
        collectPassphrases_of_encode E pk ent ws hws pps]
      simp [slotPrivateKeys, Except.map]

theorem get_all_private_keys_spec (E : Externals PK G1) (s : Store)
    (pps : List (List Nat)) (hwf : EntropiesEncode E s) :
    get_all_private_keys E s pps =
      (.ok (slotPrivateKeys E s pps (List.range' 0 (MAX_KEYS + 1))),
       List.range' 0 (MAX_KEYS + 2)) := by
  rw [get_all_private_keys, get_all_private_keys_loop_spec E s pps hwf]
  have h : List.range' 0 (MAX_KEYS + 2) = 0 :: List.range' 1 (MAX_KEYS + 1) :=
    List.range'_succ 0 (MAX_KEYS + 1) 1
  rw [h]

theorem get_first_private_key_loop_spec (E : Externals PK G1) (s : Store)
    (pps : List (List Nat)) (hwf : EntropiesEncode E s) :
    ∀ fuel index,
      (get_first_private_key_loop E s pps fuel index
        (get_pk_and_entropy E s index)).1 =
        .ok (slotPrivateKeys E s pps (List.range' index fuel)).head? := by
  intro fuel
  induction fuel with
  | zero => intro index; rfl
  | succ fuel ih =>
    intro index
    rcases hp : get_pk_and_entropy E s index with _ | ⟨pk, ent⟩
    · simp only [get_first_private_key_loop, List.range'_succ,
        slotPrivateKeys, joinMap, hp]
      simpa [slotPrivateKeys] using ih (index + 1)
    · obtain ⟨ws, hws⟩ := hwf index pk ent hp
      simp only [get_first_private_key_loop, List.range'_succ,
        slotPrivateKeys, joinMap, hp, hws,
        tryPassphrases_of_encode E pk ent ws hws pps]
      cases hf : pps.find? (ppMatches E pk ws) with
      | none =>
        have hfil : pps.filter (ppMatches E pk ws) = [] := by
          rw [← List.head?_eq_none_iff, head?_filter_eq_find?, hf]
        simp only [hfil, Option.map_none', List.map_nil, List.nil_append]
        simpa [slotPrivateKeys] using ih (index + 1)
      | some pp =>
        have hfil : (pps.filter (ppMatches E pk ws)).head? = some pp := by
          rw [head?_filter_eq_find?, hf]
        have hne : pps.filter (ppMatches E pk ws) ≠ [] := by
          intro hnil
          rw [hnil] at hfil
          exact Option.noConfusion hfil
        simp only [Option.map_some']
        rw [List.head?_append_of_ne_nil _ (by simpa using hne)]
        rw [List.head?_map, hfil]
        rfl

theorem get_private_key_by_fingerprint_loop_spec (E : Externals PK G1)
    (s : Store) (fp : Nat) (pps : List (List Nat))
    (hwf : EntropiesEncode E s) :
    ∀ fuel index,
      (get_private_key_by_fingerprint_loop E s fp pps fuel index
        (get_pk_and_entropy E s index)).1 =
        .ok (slotFpHits E s fp pps (List.range' index fuel)).head? := by
  intro fuel
  induction fuel with
  | zero => intro index; rfl
  | succ fuel ih =>
    intro index
    rcases hp : get_pk_and_entropy E s index with _ | ⟨pk, ent⟩
    · simp only [get_private_key_by_fingerprint_loop, List.range'_succ,
        slotFpHits, joinMap, hp]
      simpa [slotFpHits] using ih (index + 1)
    · obtain ⟨ws, hws⟩ := hwf index pk ent hp
      simp only [get_private_key_by_fingerprint_loop, List.range'_succ,
        slotFpHits, joinMap, hp, hws,
        tryPassphrasesByFp_of_encode E fp pk ent ws hws pps]
      cases pps with
      | nil =>
        simpa [slotFpHits] using ih (index + 1)
      | cons pp rest =>
        by_cases h : E.fingerprint pk = fp
        · simp [h]
        · simp only [if_neg h, List.nil_append]
          simpa [slotFpHits] using ih (index + 1)

theorem get_first_public_key_loop_spec (E : Externals PK G1) (s : Store) :
    ∀ fuel index,
      (get_first_public_key_loop E s fuel index
        (get_pk_and_entropy E s index)).1 =
        ((slotRecords E s (List.range' index fuel)).map Prod.fst).head? := by
  intro fuel
  induction fuel with
  | zero => intro index; rfl
  | succ fuel ih =>
    intro index
    rcases hp : get_pk_and_entropy E s index with _ | ⟨pk, ent⟩ <;>
      simp only [get_first_public_key_loop, List.range'_succ, slotRecords,
        List.filterMap_cons, hp, List.map_cons, List.head?_cons]
    simpa [slotRecords] using ih (index + 1)

theorem get_pk_and_entropy_congr (E : Externals PK G1) (s t : Store) (j : Nat)
    (h : s j = t j) : get_pk_and_entropy E s j = get_pk_and_entropy E t j := by
  unfold get_pk_and_entropy
  rw [h]

/-! Trace bounds: each loop performs at most `fuel` further reads, all of
indices in `(index, index + fuel]`. -/

theorem get_all_public_keys_loop_trace (E : Externals PK G1) (s : Store) :
    ∀ fuel index pkent,
      (get_all_public_keys_loop E s fuel index pkent).2.length ≤ fuel ∧
      ∀ j ∈ (get_all_public_keys_loop E s fuel index pkent).2,
        j ≤ index + fuel := by
  intro fuel
  induction fuel with
  | zero =>
    intro index pkent
    exact ⟨Nat.le_refl 0, by intro j hj; cases hj⟩
  | succ fuel ih =>
    intro index pkent
    obtain ⟨h1, h2⟩ := ih (index + 1) (get_pk_and_entropy E s (index + 1))
    rcases pkent with _ | ⟨pk, ent⟩ <;>
      simp only [get_all_public_keys_loop] <;>
      refine ⟨by simpa using h1, ?_⟩ <;>
      · intro j hj
        rcases List.mem_cons.mp hj with h | h
        · omega
        · have := h2 j h
          omega

theorem get_first_public_key_loop_trace (E : Externals PK G1) (s : Store) :
    ∀ fuel index pkent,
      (get_first_public_key_loop E s fuel index pkent).2.length ≤ fuel ∧
      ∀ j ∈ (get_first_public_key_loop E s fuel index pkent).2,
        j ≤ index + fuel := by
  intro fuel
  induction fuel with
  | zero =>
    intro index pkent
    exact ⟨Nat.le_refl 0, by intro j hj; cases hj⟩
  | succ fuel ih =>
    intro index pkent
    obtain ⟨h1, h2⟩ := ih (index + 1) (get_pk_and_entropy E s (index + 1))
    rcases pkent with _ | ⟨pk, ent⟩
    · simp only [get_first_public_key_loop]
      refine ⟨by simpa using h1, ?_⟩
      intro j hj
      rcases List.mem_cons.mp hj with h | h
      · omega
      · have := h2 j h
        omega
    · exact ⟨by simp [get_first_public_key_loop], by
        intro j hj
        simp [get_first_public_key_loop] at hj⟩

theorem get_all_private_keys_loop_trace (E : Externals PK G1) (s : Store)
    (pps : List (List Nat)) :
    ∀ fuel index pkent,
      (get_all_private_keys_loop E s pps fuel index pkent).2.length ≤ fuel ∧
      ∀ j ∈ (get_all_private_keys_loop E s pps fuel index pkent).2,
        j ≤ index + fuel := by
  intro fuel
  induction fuel with
  | zero =>
    intro index pkent
    exact ⟨Nat.le_refl 0, by intro j hj; cases hj⟩
  | succ fuel ih =>
    intro index pkent
    obtain ⟨h1, h2⟩ := ih (index + 1) (get_pk_and_entropy E s (index + 1))
    rcases pkent with _ | ⟨pk, ent⟩
    · simp only [get_all_private_keys_loop]
      refine ⟨by simpa using h1, ?_⟩
      intro j hj
      rcases List.mem_cons.mp hj with h | h
      · omega
      · have := h2 j h
        omega
    · simp only [get_all_private_keys_loop]
      cases hc : collectPassphrases E pk ent pps
      · exact ⟨by simp, by intro j hj; simp at hj⟩
      · refine ⟨by simpa using h1, ?_⟩
        intro j hj
        rcases List.mem_cons.mp hj with h | h
        · omega
        · have := h2 j h
          omega

theorem get_first_private_key_loop_trace (E : Externals PK G1) (s : Store)
    (pps : List (List Nat)) :
    ∀ fuel index pkent,
      (get_first_private_key_loop E s pps fuel index pkent).2.length ≤ fuel ∧
      ∀ j ∈ (get_first_private_key_loop E s pps fuel index pkent).2,
        j ≤ index + fuel := by
  intro fuel
  induction fuel with
  | zero =>
    intro index pkent
    exact ⟨Nat.le_refl 0, by intro j hj; cases hj⟩
  | succ fuel ih =>
    intro index pkent
    obtain ⟨h1, h2⟩ := ih (index + 1) (get_pk_and_entropy E s (index + 1))
    rcases pkent with _ | ⟨pk, ent⟩
    · simp only [get_first_private_key_loop]
      refine ⟨by simpa using h1, ?_⟩
      intro j hj
      rcases List.mem_cons.mp hj with h | h
      · omega
      · have := h2 j h
        omega
    · simp only [get_first_private_key_loop]
      cases hc : tryPassphrases E pk ent pps with
      | error err => exact ⟨by simp, by intro j hj; simp at hj⟩
      | ok o =>
        cases o with
        | some key => exact ⟨by simp, by intro j hj; simp at hj⟩
        | none =>
          refine ⟨by simpa using h1, ?_⟩
          intro j hj
          rcases List.mem_cons.mp hj with h | h
          · omega
          · have := h2 j h
            omega

theorem get_private_key_by_fingerprint_loop_trace (E : Externals PK G1)
    (s : Store) (fp : Nat) (pps : List (List Nat)) :
    ∀ fuel index pkent,
      (get_private_key_by_fingerprint_loop E s fp pps fuel index pkent).2.length
        ≤ fuel ∧
      ∀ j ∈ (get_private_key_by_fingerprint_loop E s fp pps fuel index pkent).2,
        j ≤ index + fuel := by
  intro fuel
  induction fuel with
  | zero =>
    intro index pkent
    exact ⟨Nat.le_refl 0, by intro j hj; cases hj⟩
  | succ fuel ih =>
    intro index pkent
    obtain ⟨h1, h2⟩ := ih (index + 1) (get_pk_and_entropy E s (index + 1))
    rcases pkent with _ | ⟨pk, ent⟩
    · simp only [get_private_key_by_fingerprint_loop]
      refine ⟨by simpa using h1, ?_⟩
      intro j hj
      rcases List.mem_cons.mp hj with h | h
      · omega
      · have := h2 j h
        omega
    · simp only [get_private_key_by_fingerprint_loop]
      cases hc : tryPassphrasesByFp E fp pk ent pps with
      | error err => exact ⟨by simp, by intro j hj; simp at hj⟩
      | ok o =>
        cases o with
        | some key => exact ⟨by simp, by intro j hj; simp at hj⟩
        | none =>
          refine ⟨by simpa using h1, ?_⟩
          intro j hj
          rcases List.mem_cons.mp hj with h | h
          · omega
          · have := h2 j h
            omega

/-! Agreement: each lookup's result (and trace) depends only on the slots
it can use, i.e. indices `0..MAX_KEYS`. -/

theorem get_all_public_keys_loop_congr (E : Externals PK G1) (s t : Store)
    (hag : ∀ j, j ≤ MAX_KEYS → s j = t j) :
    ∀ fuel index pkent, fuel + index ≤ MAX_KEYS + 1 →
      get_all_public_keys_loop E s fuel index pkent =
        get_all_public_keys_loop E t fuel index pkent := by
  intro fuel
  induction fuel with
  | zero => intro index pkent h; rfl
  | succ fuel ih =>
    intro index pkent h
    have hrec : get_all_public_keys_loop E s fuel (index + 1)
        (get_pk_and_entropy E s (index + 1)) =
        get_all_public_keys_loop E t fuel (index + 1)
        (get_pk_and_entropy E t (index + 1)) := by
      cases fuel with
      | zero => rfl
      | succ f =>
        rw [get_pk_and_entropy_congr E s t (index + 1) (hag (index + 1) (by omega))]
        exact ih (index + 1) _ (by omega)
    simp only [get_all_public_keys_loop, hrec]

theorem get_first_public_key_loop_congr (E : Externals PK G1) (s t : Store)
    (hag : ∀ j, j ≤ MAX_KEYS → s j = t j) :
    ∀ fuel index pkent, fuel + index ≤ MAX_KEYS + 1 →
      get_first_public_key_loop E s fuel index pkent =
        get_first_public_key_loop E t fuel index pkent := by
  intro fuel
  induction fuel with
  | zero => intro index pkent h; rfl
  | succ fuel ih =>
    intro index pkent h
    have hrec : get_first_public_key_loop E s fuel (index + 1)
        (get_pk_and_entropy E s (index + 1)) =
        get_first_public_key_loop E t fuel (index + 1)
        (get_pk_and_entropy E t (index + 1)) := by
      cases fuel with
      | zero => rfl
      | succ f =>
        rw [get_pk_and_entropy_congr E s t (index + 1) (hag (index + 1) (by omega))]
        exact ih (index + 1) _ (by omega)
    simp only [get_first_public_key_loop, hrec]

theorem get_all_private_keys_loop_congr (E : Externals PK G1) (s t : Store)
    (pps : List (List Nat)) (hag : ∀ j, j ≤ MAX_KEYS → s j = t j) :
    ∀ fuel index pkent, fuel + index ≤ MAX_KEYS + 1 →
      get_all_private_keys_loop E s pps fuel index pkent =
        get_all_private_keys_loop E t pps fuel index pkent := by
  intro fuel
  induction fuel with
  | zero => intro index pkent h; rfl
  | succ fuel ih =>
    intro index pkent h
    have hrec : get_all_private_keys_loop E s pps fuel (index + 1)
        (get_pk_and_entropy E s (index + 1)) =
        get_all_private_keys_loop E t pps fuel (index + 1)
        (get_pk_and_entropy E t (index + 1)) := by
      cases fuel with
      | zero => rfl
      | succ f =>
        rw [get_pk_and_entropy_congr E s t (index + 1) (hag (index + 1) (by omega))]
        exact ih (index + 1) _ (by omega)
    simp only [get_all_private_keys_loop, hrec]

theorem get_first_private_key_loop_congr (E : Externals PK G1) (s t : Store)
    (pps : List (List Nat)) (hag : ∀ j, j ≤ MAX_KEYS → s j = t j) :
    ∀ fuel index pkent, fuel + index ≤ MAX_KEYS + 1 →
      get_first_private_key_loop E s pps fuel index pkent =
        get_first_private_key_loop E t pps fuel index pkent := by
  intro fuel
  induction fuel with
  | zero => intro index pkent h; rfl
  | succ fuel ih =>
    intro index pkent h
    have hrec : get_first_private_key_loop E s pps fuel (index + 1)
        (get_pk_and_entropy E s (index + 1)) =
        get_first_private_key_loop E t pps fuel (index + 1)
        (get_pk_and_entropy E t (index + 1)) := by
      cases fuel with
      | zero => rfl
      | succ f =>
        rw [get_pk_and_entropy_congr E s t (index + 1) (hag (index + 1) (by omega))]
        exact ih (index + 1) _ (by omega)
    simp only [get_first_private_key_loop, hrec]

theorem get_private_key_by_fingerprint_loop_congr (E : Externals PK G1)
    (s t : Store) (fp : Nat) (pps : List (List Nat))
    (hag : ∀ j, j ≤ MAX_KEYS → s j = t j) :
    ∀ fuel index pkent, fuel + index ≤ MAX_KEYS + 1 →
      get_private_key_by_fingerprint_loop E s fp pps fuel index pkent =
        get_private_key_by_fingerprint_loop E t fp pps fuel index pkent := by
  intro fuel
  induction fuel with
  | zero => intro index pkent h; rfl
  | succ fuel ih =>
    intro index pkent h
    have hrec : get_private_key_by_fingerprint_loop E s fp pps fuel (index + 1)
        (get_pk_and_entropy E s (index + 1)) =
        get_private_key_by_fingerprint_loop E t fp pps fuel (index + 1)
        (get_pk_and_entropy E t (index + 1)) := by
      cases fuel with
      | zero => rfl
      | succ f =>
        rw [get_pk_and_entropy_congr E s t (index + 1) (hag (index + 1) (by omega))]
        exact ih (index + 1) _ (by omega)
    simp only [get_private_key_by_fingerprint_loop, hrec]

/-! Free-slot scan, delete-by-fingerprint and delete-all lemmas -/

theorem get_free_private_key_index_spec (E : Externals PK G1) (s : Store) :
    ∀ fuel index i,
      get_free_private_key_index E s fuel index = some i →
        index ≤ i ∧ i < index + fuel ∧ get_pk_and_entropy E s i = none ∧
        ∀ j, index ≤ j → j < i → get_pk_and_entropy E s j ≠ none := by
  intro fuel
  induction fuel with
  | zero =>
    intro index i h
    exact absurd h (by simp [get_free_private_key_index])
  | succ fuel ih =>
    intro index i h
    simp only [get_free_private_key_index] at h
    split at h
    · rename_i heq
      injection h with h
      subst h
      exact ⟨Nat.le_refl _, by omega, heq, fun j h1 h2 => by omega⟩
    · rename_i pe heq
      obtain ⟨h1, h2, h3, h4⟩ := ih (index + 1) i h
      refine ⟨by omega, by omega, h3, ?_⟩
      intro j hj1 hj2
      rcases Nat.eq_or_lt_of_le hj1 with hj | hj
      · rw [← hj, heq]
        simp
      · exact h4 j (by omega) hj2

theorem get_free_private_key_index_isSome (E : Externals PK G1) (s : Store) :
    ∀ fuel index i, index ≤ i → i < index + fuel →
      get_pk_and_entropy E s i = none →
      (get_free_private_key_index E s fuel index).isSome := by
  intro fuel
  induction fuel with
  | zero => intro index i h1 h2; omega
  | succ fuel ih =>
    intro index i h1 h2 h3
    simp only [get_free_private_key_index]
    rcases hp : get_pk_and_entropy E s index with _ | pe
    · rfl
    · rcases Nat.eq_or_lt_of_le h1 with hj | hj
      · exfalso
        rw [hj, h3] at hp
        exact Option.noConfusion hp
      · exact ih (index + 1) i (by omega) (by omega) h3

theorem delete_key_by_fingerprint_loop_below (E : Externals PK G1) (fp : Nat) :
    ∀ fuel index s j, j < index →
      (delete_key_by_fingerprint_loop E fp fuel index s).1 j = s j := by
  intro fuel
  induction fuel with
  | zero => intro index s j hj; rfl
  | succ fuel ih =>
    intro index s j hj
    simp only [delete_key_by_fingerprint_loop]
    rcases hp : get_pk_and_entropy E s index with _ | ⟨pk, ent⟩
    · simpa using ih (index + 1) s j (by omega)
    · by_cases hf : E.fingerprint pk = fp
      · simp only [hf, if_pos rfl]
        rw [ih (index + 1) _ j (by omega)]
        simp [storeDelete]
        intro hji
        omega
      · simp only [if_neg hf]
        exact ih (index + 1) s j (by omega)

theorem delete_key_by_fingerprint_loop_above (E : Externals PK G1) (fp : Nat) :
    ∀ fuel index s j, index + fuel ≤ j →
      (delete_key_by_fingerprint_loop E fp fuel index s).1 j = s j := by
  intro fuel
  induction fuel with
  | zero => intro index s j hj; rfl
  | succ fuel ih =>
    intro index s j hj
    simp only [delete_key_by_fingerprint_loop]
    rcases hp : get_pk_and_entropy E s index with _ | ⟨pk, ent⟩
    · simpa using ih (index + 1) s j (by omega)
    · by_cases hf : E.fingerprint pk = fp
      · simp only [hf, if_pos rfl]
        rw [ih (index + 1) _ j (by omega)]
        simp [storeDelete]
        intro hji
        omega
      · simp only [if_neg hf]
        exact ih (index + 1) s j (by omega)

/-- The per-slot effect of `delete_key_by_fingerprint` on slot `j`. -/
def deleteFpSpec (E : Externals PK G1) (fp : Nat) (s : Store) (j : Nat) :
    Option (List Nat) :=
  (get_pk_and_entropy E s j).elim (s j)
    (fun pe => if E.fingerprint pe.1 = fp then none else s j)

theorem deleteFpSpec_congr (E : Externals PK G1) (fp : Nat) (s t : Store)
    (j : Nat) (h : s j = t j) : deleteFpSpec E fp s j = deleteFpSpec E fp t j := by
  unfold deleteFpSpec
  rw [get_pk_and_entropy_congr E s t j h, h]

theorem delete_key_by_fingerprint_loop_at (E : Externals PK G1) (fp : Nat) :
    ∀ fuel index s j, index ≤ j → j < index + fuel →
      (delete_key_by_fingerprint_loop E fp fuel index s).1 j =
        deleteFpSpec E fp s j := by
  intro fuel
  induction fuel with
  | zero => intro index s j h1 h2; omega
  | succ fuel ih =>
    intro index s j h1 h2
    rcases Nat.eq_or_lt_of_le h1 with hj | hj
    · simp only [delete_key_by_fingerprint_loop]
      rcases hp : get_pk_and_entropy E s index with _ | ⟨pk, ent⟩
      · rw [delete_key_by_fingerprint_loop_below E fp fuel (index + 1) s j (by omega)]
        rw [deleteFpSpec, ← hj, hp]
        rfl
      · by_cases hf : E.fingerprint pk = fp
        · simp only [hf, if_pos rfl]
          rw [delete_key_by_fingerprint_loop_below E fp fuel (index + 1) _ j (by omega)]
          rw [deleteFpSpec, ← hj, hp]
          simp [storeDelete, hf]
        · simp only [if_neg hf]
          rw [delete_key_by_fingerprint_loop_below E fp fuel (index + 1) s j (by omega)]
          rw [deleteFpSpec, ← hj, hp]
          simp [hf]
    · simp only [delete_key_by_fingerprint_loop]
      rcases hp : get_pk_and_entropy E s index with _ | ⟨pk, ent⟩
      · exact ih (index + 1) s j (by omega) (by omega)
      · by_cases hf : E.fingerprint pk = fp
        · simp only [hf, if_pos rfl]
          have hdel : storeDelete s index j = s j := by
            simp [storeDelete]
            intro hji
            omega
          rw [ih (index + 1) _ j (by omega) (by omega)]
          exact deleteFpSpec_congr E fp _ s j hdel
        · simp only [if_neg hf]
          exact ih (index + 1) s j (by omega) (by omega)

set_option maxRecDepth 100000 in
theorem delete_key_by_fingerprint_at (E : Externals PK G1) (s : Store)
    (fp : Nat) (j : Nat) :
    (delete_key_by_fingerprint E s fp).1 j =
      if j ≤ MAX_KEYS then deleteFpSpec E fp s j else s j := by
  have hw : (delete_key_by_fingerprint E s fp).1 =
      (delete_key_by_fingerprint_loop E fp (MAX_KEYS + 1) 0 s).1 := by
    simp only [delete_key_by_fingerprint]
  rw [hw]
  by_cases hj : j ≤ MAX_KEYS
  · rw [if_pos hj]
    exact delete_key_by_fingerprint_loop_at E fp (MAX_KEYS + 1) 0 s j
      (Nat.zero_le j) (by omega)
  · rw [if_neg hj]
    exact delete_key_by_fingerprint_loop_above E fp (MAX_KEYS + 1) 0 s j (by omega)

theorem delete_all_loop_none_mono (E : Externals PK G1) (raises : Bool) :
    ∀ fuel index exc s s',
      delete_all_loop E raises fuel index exc s = some s' →
      ∀ j, s j = none → s' j = none := by
  intro fuel
  induction fuel with
  | zero =>
    intro index exc s s' h
    exact absurd h (by simp [delete_all_loop])
  | succ fuel ih =>
    intro index exc s s' h j hj
    simp only [delete_all_loop] at h
    split at h
    · injection h with h
      rw [← h]
      simp [storeDelete, hj]
    · have hdel : storeDelete s index j = none := by simp [storeDelete, hj]
      exact ih (index + 1) _ _ s' h j hdel

theorem delete_all_loop_wipes (E : Externals PK G1) (raises : Bool) :
    ∀ fuel index exc s s',
      delete_all_loop E raises fuel index exc s = some s' →
      ∀ j, index ≤ j → j ≤ MAX_KEYS → s' j = none := by
  intro fuel
  induction fuel with
  | zero =>
    intro index exc s s' h
    exact absurd h (by simp [delete_all_loop])
  | succ fuel ih =>
    intro index exc s s' h j h1 h2
    simp only [delete_all_loop] at h
    split at h
    · rename_i hcond
      simp only [Bool.and_eq_true, decide_eq_true_eq] at hcond
      omega
    · rcases Nat.eq_or_lt_of_le h1 with hj | hj
      · have hdel : storeDelete s index j = none := by
          rw [← hj]
          simp [storeDelete]
        exact delete_all_loop_none_mono E raises fuel (index + 1) _ _ s' h j hdel
      · exact ih (index + 1) _ _ s' h j (by omega) h2

theorem delete_all_keys_wipes (E : Externals PK G1) (raises : Bool)
    (s : Store) (fuel : Nat) (s' : Store)
    (h : delete_all_keys E raises s fuel = some s') :
    ∀ j, j ≤ MAX_KEYS → s' j = none := by
  rw [delete_all_keys] at h
  rcases hfirst : delete_all_loop E raises fuel 0 false s with _ | s1 <;>
    rw [hfirst] at h
  · exact Option.noConfusion h
  · exact fun j hj => delete_all_loop_wipes E raises fuel 0 true s1 s' h j
      (Nat.zero_le j) hj

/-! Slot parsing after a write, `add_private_key` characterization, and
membership in the enumeration -/

theorem get_pk_and_entropy_storeSet_same (E : Externals PK G1) (s : Store)
    (i : Nat) (x : G1) (ent : List Nat)
    (hlen : (E.g1Bytes x).length = E.g1Size) (hpos : 0 < E.g1Size)
    (hft : E.g1FromBytes (E.g1Bytes x) = x) :
    get_pk_and_entropy E (storeSet s i (E.g1Bytes x ++ ent)) i
      = some (x, ent) := by
  have h1 : storeSet s i (E.g1Bytes x ++ ent) i = some (E.g1Bytes x ++ ent) := by
    simp [storeSet]
  unfold get_pk_and_entropy
  rw [h1]
  show (if (E.g1Bytes x ++ ent).length = 0 then none
    else some (E.g1FromBytes ((E.g1Bytes x ++ ent).take E.g1Size),
      (E.g1Bytes x ++ ent).drop E.g1Size)) = some (x, ent)
  rw [if_neg (by simp only [List.length_append]; omega)]
  rw [List.take_left' hlen, List.drop_left' hlen, hft]

theorem get_pk_and_entropy_storeSet_other (E : Externals PK G1) (s : Store)
    (i j : Nat) (v : List Nat) (hne : j ≠ i) :
    get_pk_and_entropy E (storeSet s i v) j = get_pk_and_entropy E s j := by
  apply get_pk_and_entropy_congr
  simp [storeSet, hne]

theorem add_private_key_spec (E : Externals PK G1) (s : Store)
    (m pp : List Nat) (fuel : Nat) (ent : List Nat) (index : Nat)
    (hent : bytes_from_mnemonic m = .ok ent)
    (hfree : get_free_private_key_index E s fuel 0 = some index) :
    add_private_key E s m pp fuel =
      (if E.fingerprint (E.g1 (E.keyGen (mnemonic_to_seed E.prf E.norm (joinWords E m) pp)))
          ∈ (get_all_public_keys E s).1.map E.fingerprint
       then .ok (some (s, E.keyGen (mnemonic_to_seed E.prf E.norm (joinWords E m) pp)))
       else .ok (some (storeSet s index
         (E.g1Bytes (E.g1 (E.keyGen (mnemonic_to_seed E.prf E.norm (joinWords E m) pp))) ++ ent),
         E.keyGen (mnemonic_to_seed E.prf E.norm (joinWords E m) pp)))) := by
  simp only [add_private_key, hent, hfree]

theorem mem_get_all_public_keys (E : Externals PK G1) (s : Store) (pk : G1) :
    pk ∈ (get_all_public_keys E s).1 ↔
      ∃ i, i ≤ MAX_KEYS ∧ ∃ ent, get_pk_and_entropy E s i = some (pk, ent) := by
  rw [get_all_public_keys_spec]
  simp only [slotRecords, List.mem_map, List.mem_filterMap, List.mem_range']
  constructor
  · rintro ⟨⟨pk', ent⟩, ⟨i, ⟨k, hk, hik⟩, hp⟩, hfst⟩
    subst hfst
    exact ⟨i, by omega, ent, hp⟩
  · rintro ⟨i, hi, ent, hp⟩
    exact ⟨(pk, ent), ⟨i, ⟨i, by omega, by omega⟩, hp⟩, rfl⟩

theorem mem_joinMap (f : α → List β) (l : List α) (b : β) :
    b ∈ joinMap f l ↔ ∃ a ∈ l, b ∈ f a := by
  induction l with
  | nil => simp [joinMap]
  | cons a l ih => simp [joinMap, ih]

theorem joinMap_eq_nil (f : α → List β) (l : List α)
    (h : ∀ a ∈ l, f a = []) : joinMap f l = [] := by
  induction l with
  | nil => rfl
  | cons a l ih =>
    rw [joinMap, h a (by simp), List.nil_append]
    exact ih (fun x hx => h x (by simp [hx]))

theorem get_pk_and_entropy_of_none (E : Externals PK G1) (s : Store) (i : Nat)
    (h : s i = none) : get_pk_and_entropy E s i = none := by
  unfold get_pk_and_entropy
  rw [h]

theorem mem_slotPrivateKeys (E : Externals PK G1) (s : Store)
    (pps : List (List Nat)) (idxs : List Nat) (key : PK) (ent : List Nat) :
    (key, ent) ∈ slotPrivateKeys E s pps idxs ↔
      ∃ i ∈ idxs, ∃ pk ws pp, get_pk_and_entropy E s i = some (pk, ent) ∧
        bytes_to_mnemonic ent = .ok ws ∧ pp ∈ pps ∧
        ppMatches E pk ws pp = true ∧ key = regenFromWords E ws pp := by
  rw [slotPrivateKeys, mem_joinMap]
  constructor
  · rintro ⟨i, hi, hmem⟩
    rcases hp : get_pk_and_entropy E s i with _ | ⟨pk, ent'⟩ <;>
      rw [hp] at hmem <;> simp only [] at hmem
    · cases hmem
    · rcases hw : bytes_to_mnemonic ent' with err | ws <;>
        rw [hw] at hmem <;> simp only [] at hmem
      · cases hmem
      · rcases List.mem_map.mp hmem with ⟨pp, hpp, hpair⟩
        have hent : ent' = ent := congrArg Prod.snd hpair
        subst hent
        have hkey : key = regenFromWords E ws pp := (congrArg Prod.fst hpair).symm
        exact ⟨i, hi, pk, ws, pp, hp, hw, List.mem_of_mem_filter hpp,
          List.of_mem_filter hpp, hkey⟩
  · rintro ⟨i, hi, pk, ws, pp, hp, hw, hppin, hmatch, hkey⟩
    refine ⟨i, hi, ?_⟩
    simp only [hp, hw]
    exact List.mem_map.mpr ⟨pp, List.mem_filter.mpr ⟨hppin, hmatch⟩, by rw [hkey]⟩

theorem mem_slotFpHits (E : Externals PK G1) (s : Store) (fp : Nat)
    (pps : List (List Nat)) (idxs : List Nat) (key : PK) (ent : List Nat) :
    (key, ent) ∈ slotFpHits E s fp pps idxs ↔
      ∃ i ∈ idxs, ∃ pk ws, get_pk_and_entropy E s i = some (pk, ent) ∧
        bytes_to_mnemonic ent = .ok ws ∧ E.fingerprint pk = fp ∧
        ∃ pp rest, pps = pp :: rest ∧ key = regenFromWords E ws pp := by
  rw [slotFpHits, mem_joinMap]
  constructor
  · rintro ⟨i, hi, hmem⟩
    rcases hp : get_pk_and_entropy E s i with _ | ⟨pk, ent'⟩ <;>
      rw [hp] at hmem <;> simp only [] at hmem
    · cases hmem
    · rcases hw : bytes_to_mnemonic ent' with err | ws <;>
        rw [hw] at hmem <;> simp only [] at hmem
      · cases hmem
      · rcases pps with _ | ⟨pp, rest⟩ <;> simp only [] at hmem
        · cases hmem
        · by_cases hf : E.fingerprint pk = fp
          · rw [if_pos hf, List.mem_singleton] at hmem
            injection hmem with h1 h2
            subst h2
            exact ⟨i, hi, pk, ws, hp, hw, hf, pp, rest, rfl, h1⟩
          · rw [if_neg hf] at hmem
            cases hmem
  · rintro ⟨i, hi, pk, ws, hp, hw, hf, pp, rest, hpps, hkey⟩
    refine ⟨i, hi, ?_⟩
    simp only [hp, hw, hpps, if_pos hf, hkey]
    simp

theorem mem_fingerprints (E : Externals PK G1) (s : Store) (fp : Nat) :
    fp ∈ (get_all_public_keys E s).1.map E.fingerprint ↔
      ∃ i, i ≤ MAX_KEYS ∧ ∃ pk ent,
        get_pk_and_entropy E s i = some (pk, ent) ∧ E.fingerprint pk = fp := by
  rw [List.mem_map]
  constructor
  · rintro ⟨pk, hpk, hf⟩
    obtain ⟨i, hi, ent, hp⟩ := (mem_get_all_public_keys E s pk).mp hpk
    exact ⟨i, hi, pk, ent, hp, hf⟩
  · rintro ⟨i, hi, pk, ent, hp, hf⟩
    exact ⟨pk, (mem_get_all_public_keys E s pk).mpr ⟨i, hi, ent, hp⟩, hf⟩

theorem get_free_private_key_index_eq (E : Externals PK G1) (s : Store) :
    ∀ fuel index k, index ≤ k → k < index + fuel →
      (∀ j, index ≤ j → j < k → get_pk_and_entropy E s j ≠ none) →
      get_pk_and_entropy E s k = none →
      get_free_private_key_index E s fuel index = some k := by
  intro fuel
  induction fuel with
  | zero => intro index k h1 h2; omega
  | succ fuel ih =>
    intro index k h1 h2 hocc hk
    simp only [get_free_private_key_index]
    rcases Nat.eq_or_lt_of_le h1 with hj | hj
    · rw [hj, hk]
    · rcases hp : get_pk_and_entropy E s index with _ | pe
      · exact absurd hp (hocc index (Nat.le_refl _) hj)
      · exact ih (index + 1) k (by omega) (by omega)
          (fun j ha hb => hocc j (by omega) hb) hk

theorem head?_mem {l : List α} {a : α} (h : l.head? = some a) : a ∈ l := by
  cases l with
  | nil => cases h
  | cons x l =>
    injection h with h
    rw [h]
    simp

/-! ### Claims C2 and C3 -/

/-- C2 (amended): on a well-formed namespace, `get_first_private_key` and
`get_all_private_keys` return only pairs whose regenerated public key
equals the stored one (slots no candidate passphrase reproduces are
skipped); `get_private_key_by_fingerprint`, however, accepts a slot as
soon as the stored key's fingerprint equals the target, returning the key
derived from the first candidate passphrase without confirming that it
reproduces the stored public key. -/
theorem C2_lookup_confirmation {PK G1 : Type} (E : Externals PK G1)
    (s : Store) (pps : List (List Nat)) (fp : Nat)
    (hwf : EntropiesEncode E s) :
    (∀ key ent, (get_first_private_key E s pps).1 = .ok (some (key, ent)) →
      ∃ i pk, i ≤ MAX_KEYS ∧ get_pk_and_entropy E s i = some (pk, ent) ∧
        E.g1Eq (E.g1 key) pk = true) ∧
    (∀ l key ent, (get_all_private_keys E s pps).1 = .ok l → (key, ent) ∈ l →
      ∃ i pk, i ≤ MAX_KEYS ∧ get_pk_and_entropy E s i = some (pk, ent) ∧
        E.g1Eq (E.g1 key) pk = true) ∧
    (∀ key ent, (get_private_key_by_fingerprint E s fp pps).1
        = .ok (some (key, ent)) →
      ∃ i pk ws, i ≤ MAX_KEYS ∧ get_pk_and_entropy E s i = some (pk, ent) ∧
        E.fingerprint pk = fp ∧ bytes_to_mnemonic ent = .ok ws ∧
        ∃ pp rest, pps = pp :: rest ∧ key = regenFromWords E ws pp) := by
  have hmemrange : ∀ i : Nat, i ∈ List.range' 0 (MAX_KEYS + 1) → i ≤ MAX_KEYS := by
    intro i hi
    rw [List.mem_range'] at hi
    obtain ⟨k, hk, hik⟩ := hi
    omega
  refine ⟨?_, ?_, ?_⟩
  · intro key ent h
    have hw : (get_first_private_key E s pps).1 =
        (get_first_private_key_loop E s pps (MAX_KEYS + 1) 0
          (get_pk_and_entropy E s 0)).1 := by
      simp only [get_first_private_key]
    rw [hw, get_first_private_key_loop_spec E s pps hwf] at h
    injection h with h
    have hmem := head?_mem h
    obtain ⟨i, hi, pk, ws, pp, hp, hws, hppin, hmatch, hkey⟩ :=
      (mem_slotPrivateKeys E s pps _ key ent).mp hmem
    refine ⟨i, pk, hmemrange i hi, hp, ?_⟩
    rw [hkey]
    exact hmatch
  · intro l key ent h hmem
    have hw : (get_all_private_keys E s pps).1 =
        (get_all_private_keys_loop E s pps (MAX_KEYS + 1) 0
          (get_pk_and_entropy E s 0)).1 := by
      simp only [get_all_private_keys]
    rw [hw, get_all_private_keys_loop_spec E s pps hwf] at h
    injection h with h
    rw [← h] at hmem
    obtain ⟨i, hi, pk, ws, pp, hp, hws, hppin, hmatch, hkey⟩ :=
      (mem_slotPrivateKeys E s pps _ key ent).mp hmem
    refine ⟨i, pk, hmemrange i hi, hp, ?_⟩
    rw [hkey]
    exact hmatch
  · intro key ent h
    have hw : (get_private_key_by_fingerprint E s fp pps).1 =
        (get_private_key_by_fingerprint_loop E s fp pps (MAX_KEYS + 1) 0
          (get_pk_and_entropy E s 0)).1 := by
      simp only [get_private_key_by_fingerprint]
    rw [hw, get_private_key_by_fingerprint_loop_spec E s fp pps hwf] at h
    injection h with h
    have hmem := head?_mem h
    obtain ⟨i, hi, pk, ws, hp, hws, hf, pp, rest, hpps, hkey⟩ :=
      (mem_slotFpHits E s fp pps _ key ent).mp hmem
    exact ⟨i, pk, ws, hmemrange i hi, hp, hf, hws, pp, rest, hpps, hkey⟩

/-- Mnemonic of the all-zero 16-byte entropy, as word indices. -/
def zerosMnemonic : List Nat := [0, 0, 0, 0, 0, 0, 0, 0, 0, 0, 0, 3]

/-- The all-zero 16-byte entropy. -/
def zeros16 : List Nat := List.replicate 16 0

/-- Key regenerated from `zerosMnemonic` under passphrase `"abc"`. -/
def abcKey : List Nat := regenFromWords testExternals zerosMnemonic [97, 98, 99]

/-- Its public key. -/
def abcPk : List Nat := testExternals.g1 abcKey

/-- A namespace with one slot, written for `abcKey`. -/
def oneSlotStore : Store :=
  fun i => if i = 0 then some (testExternals.g1Bytes abcPk ++ zeros16) else none

/-- Key regenerated from `zerosMnemonic` under passphrase `"x"`. -/
def xKey : List Nat := regenFromWords testExternals zerosMnemonic [120]

set_option maxRecDepth 1000000 in
/-- Counterexample to C2 as stated: asked for `abcPk`'s fingerprint with
the single (wrong) candidate passphrase `"x"`,
`get_private_key_by_fingerprint` returns the key derived with `"x"`, whose
public key does not match the stored one. -/
theorem C2_counterexample :
    (get_private_key_by_fingerprint testExternals oneSlotStore
        (testExternals.fingerprint abcPk) [[120]]).1
      = .ok (some (xKey, zeros16)) ∧
    get_pk_and_entropy testExternals oneSlotStore 0 = some (abcPk, zeros16) ∧
    testExternals.g1Eq (testExternals.g1 xKey) abcPk = false := by
  refine ⟨by decide, by decide, by decide⟩

/-- The one-slot namespace is well-formed: its only entropy encodes. -/
theorem oneSlotStore_wf : EntropiesEncode testExternals oneSlotStore := by
  intro i pk ent h
  by_cases hi : i = 0
  · subst hi
    have h0 : get_pk_and_entropy testExternals oneSlotStore 0
        = some (abcPk, zeros16) := by decide
    rw [h0] at h
    injection h with h
    have hent : ent = zeros16 := (congrArg Prod.snd h).symm
    subst hent
    exact ⟨zerosMnemonic, by
      set_option maxRecDepth 1000000 in decide⟩
  · have h0 : get_pk_and_entropy testExternals oneSlotStore i = none := by
      unfold get_pk_and_entropy oneSlotStore
      rw [if_neg hi]
    rw [h0] at h
    exact Option.noConfusion h

set_option maxRecDepth 1000000 in
/-- Witness for the amended C2 on the one-slot namespace: the pair the
fingerprint lookup returns under the single candidate passphrase `"x"`
comes from slot 0, matched on fingerprint alone, with the key derived from
the first candidate. -/
theorem C2_lookup_confirmation_witness :
    ∃ i pk ws, i ≤ MAX_KEYS ∧
      get_pk_and_entropy testExternals oneSlotStore i = some (pk, zeros16) ∧
      testExternals.fingerprint pk = testExternals.fingerprint abcPk ∧
      bytes_to_mnemonic zeros16 = .ok ws ∧
      ∃ pp rest, ([[120]] : List (List Nat)) = pp :: rest ∧
        xKey = regenFromWords testExternals ws pp :=
  (C2_lookup_confirmation testExternals oneSlotStore [[120]]
    (testExternals.fingerprint abcPk) oneSlotStore_wf).2.2 xKey zeros16
    (by decide)

/-- C3 (amended): every enumeration and lookup operation performs at most
`MAX_KEYS + 2` (= 102) store reads — not `MAX_KEYS + 1` as claimed, since
the loops read slot `index + 1` before testing the break condition, so
slot `MAX_KEYS + 1` is also read; all indices read are `≤ MAX_KEYS + 1`;
the result still depends only on slots `0 .. MAX_KEYS`, and a record
stored above `MAX_KEYS` is never returned. -/
theorem C3_bounded_scan {PK G1 : Type} (E : Externals PK G1) (s t : Store)
    (pps : List (List Nat)) (fp : Nat)
    (hwf : EntropiesEncode E s)
    (hag : ∀ j, j ≤ MAX_KEYS → s j = t j) :
    (get_all_public_keys E s).2 = List.range' 0 (MAX_KEYS + 2) ∧
    (get_first_public_key E s).2.length ≤ MAX_KEYS + 2 ∧
    (get_all_private_keys E s pps).2.length ≤ MAX_KEYS + 2 ∧
    (get_first_private_key E s pps).2.length ≤ MAX_KEYS + 2 ∧
    (get_private_key_by_fingerprint E s fp pps).2.length ≤ MAX_KEYS + 2 ∧
    (∀ j ∈ (get_all_public_keys E s).2, j ≤ MAX_KEYS + 1) ∧
    (∀ j ∈ (get_first_public_key E s).2, j ≤ MAX_KEYS + 1) ∧
    (∀ j ∈ (get_all_private_keys E s pps).2, j ≤ MAX_KEYS + 1) ∧
    (∀ j ∈ (get_first_private_key E s pps).2, j ≤ MAX_KEYS + 1) ∧
    (∀ j ∈ (get_private_key_by_fingerprint E s fp pps).2, j ≤ MAX_KEYS + 1) ∧
    (get_all_public_keys E s).1 = (get_all_public_keys E t).1 ∧
    (get_first_public_key E s).1 = (get_first_public_key E t).1 ∧
    (get_all_private_keys E s pps).1 = (get_all_private_keys E t pps).1 ∧
    (get_first_private_key E s pps).1 = (get_first_private_key E t pps).1 ∧
    (get_private_key_by_fingerprint E s fp pps).1
      = (get_private_key_by_fingerprint E t fp pps).1 ∧
    (∀ pk ∈ (get_all_public_keys E s).1,
      ∃ i, i ≤ MAX_KEYS ∧ ∃ ent, get_pk_and_entropy E s i = some (pk, ent)) ∧
    (∀ pk, (get_first_public_key E s).1 = some pk →
      ∃ i, i ≤ MAX_KEYS ∧ ∃ ent, get_pk_and_entropy E s i = some (pk, ent)) ∧
    (∀ l key ent, (get_all_private_keys E s pps).1 = .ok l → (key, ent) ∈ l →
      ∃ i pk, i ≤ MAX_KEYS ∧ get_pk_and_entropy E s i = some (pk, ent)) := by
  have h0 : get_pk_and_entropy E s 0 = get_pk_and_entropy E t 0 :=
    get_pk_and_entropy_congr E s t 0 (hag 0 (by omega))
  have hw1 : (get_first_public_key E s).2 =
      0 :: (get_first_public_key_loop E s (MAX_KEYS + 1) 0
        (get_pk_and_entropy E s 0)).2 := by
    simp only [get_first_public_key]
  have hw2 : (get_all_private_keys E s pps).2 =
      0 :: (get_all_private_keys_loop E s pps (MAX_KEYS + 1) 0
        (get_pk_and_entropy E s 0)).2 := by
    simp only [get_all_private_keys]
  have hw3 : (get_first_private_key E s pps).2 =
      0 :: (get_first_private_key_loop E s pps (MAX_KEYS + 1) 0
        (get_pk_and_entropy E s 0)).2 := by
    simp only [get_first_private_key]
  have hw4 : (get_private_key_by_fingerprint E s fp pps).2 =
      0 :: (get_private_key_by_fingerprint_loop E s fp pps (MAX_KEYS + 1) 0
        (get_pk_and_entropy E s 0)).2 := by
    simp only [get_private_key_by_fingerprint]
  refine ⟨?_, ?_, ?_, ?_, ?_, ?_, ?_, ?_, ?_, ?_, ?_, ?_, ?_, ?_, ?_, ?_, ?_,
    ?_⟩
  · rw [get_all_public_keys_spec]
  · rw [hw1, List.length_cons]
    have ht := (get_first_public_key_loop_trace E s (MAX_KEYS + 1) 0
      (get_pk_and_entropy E s 0)).1
    omega
  · rw [hw2, List.length_cons]
    have ht := (get_all_private_keys_loop_trace E s pps (MAX_KEYS + 1) 0
      (get_pk_and_entropy E s 0)).1
    omega
  · rw [hw3, List.length_cons]
    have ht := (get_first_private_key_loop_trace E s pps (MAX_KEYS + 1) 0
      (get_pk_and_entropy E s 0)).1
    omega
  · rw [hw4, List.length_cons]
    have ht := (get_private_key_by_fingerprint_loop_trace E s fp pps
      (MAX_KEYS + 1) 0 (get_pk_and_entropy E s 0)).1
    omega
  · intro j hj
    rw [get_all_public_keys_spec] at hj
    rw [List.mem_range'] at hj
    obtain ⟨k, hk, hjk⟩ := hj
    omega
  · intro j hj
    rw [hw1] at hj
    rcases List.mem_cons.mp hj with h | h
    · omega
    · have := (get_first_public_key_loop_trace E s (MAX_KEYS + 1) 0
        (get_pk_and_entropy E s 0)).2 j h
      omega
  · intro j hj
    rw [hw2] at hj
    rcases List.mem_cons.mp hj with h | h
    · omega
    · have := (get_all_private_keys_loop_trace E s pps (MAX_KEYS + 1) 0
        (get_pk_and_entropy E s 0)).2 j h
      omega
  · intro j hj
    rw [hw3] at hj
    rcases List.mem_cons.mp hj with h | h
    · omega
    · have := (get_first_private_key_loop_trace E s pps (MAX_KEYS + 1) 0
        (get_pk_and_entropy E s 0)).2 j h
      omega
  · intro j hj
    rw [hw4] at hj
    rcases List.mem_cons.mp hj with h | h
    · omega
    · have := (get_private_key_by_fingerprint_loop_trace E s fp pps
        (MAX_KEYS + 1) 0 (get_pk_and_entropy E s 0)).2 j h
      omega
  · have hc : get_all_public_keys E s = get_all_public_keys E t := by
      simp only [get_all_public_keys]
      rw [h0, get_all_public_keys_loop_congr E s t hag (MAX_KEYS + 1) 0
        (get_pk_and_entropy E t 0) (by omega)]
    exact congrArg Prod.fst hc
  · have hc : get_first_public_key E s = get_first_public_key E t := by
      simp only [get_first_public_key]
      rw [h0, get_first_public_key_loop_congr E s t hag (MAX_KEYS + 1) 0
        (get_pk_and_entropy E t 0) (by omega)]
    exact congrArg Prod.fst hc
  · have hc : get_all_private_keys E s pps = get_all_private_keys E t pps := by
      simp only [get_all_private_keys]
      rw [h0, get_all_private_keys_loop_congr E s t pps hag (MAX_KEYS + 1) 0
        (get_pk_and_entropy E t 0) (by omega)]
    exact congrArg Prod.fst hc
  · have hc : get_first_private_key E s pps =
        get_first_private_key E t pps := by
      simp only [get_first_private_key]
      rw [h0, get_first_private_key_loop_congr E s t pps hag (MAX_KEYS + 1) 0
        (get_pk_and_entropy E t 0) (by omega)]
    exact congrArg Prod.fst hc
  · have hc : get_private_key_by_fingerprint E s fp pps =
        get_private_key_by_fingerprint E t fp pps := by
      simp only [get_private_key_by_fingerprint]
      rw [h0, get_private_key_by_fingerprint_loop_congr E s t fp pps hag
        (MAX_KEYS + 1) 0 (get_pk_and_entropy E t 0) (by omega)]
    exact congrArg Prod.fst hc
  · intro pk hpk
    exact (mem_get_all_public_keys E s pk).mp hpk
  · intro pk hpk
    have hw : (get_first_public_key E s).1 =
        (get_first_public_key_loop E s (MAX_KEYS + 1) 0
          (get_pk_and_entropy E s 0)).1 := by
      simp only [get_first_public_key]
    rw [hw, get_first_public_key_loop_spec E s (MAX_KEYS + 1) 0] at hpk
    have hmem := head?_mem hpk
    rw [List.mem_map] at hmem
    obtain ⟨⟨pk', ent⟩, hmem, hfst⟩ := hmem
    rw [slotRecords, List.mem_filterMap] at hmem
    obtain ⟨i, hi, hp⟩ := hmem
    rw [List.mem_range'] at hi
    obtain ⟨k, hk, hik⟩ := hi
    refine ⟨i, by omega, ent, ?_⟩
    rw [← hfst]
    exact hp
  · intro l key ent hl hmem
    have hw : (get_all_private_keys E s pps).1 =
        (get_all_private_keys_loop E s pps (MAX_KEYS + 1) 0
          (get_pk_and_entropy E s 0)).1 := by
      simp only [get_all_private_keys]
    rw [hw, get_all_private_keys_loop_spec E s pps hwf] at hl
    injection hl with hl
    rw [← hl] at hmem
    obtain ⟨i, hi, pk, ws, pp, hp, hws, hppin, hmatch, hkey⟩ :=
      (mem_slotPrivateKeys E s pps _ key ent).mp hmem
    rw [List.mem_range'] at hi
    obtain ⟨k, hk, hik⟩ := hi
    exact ⟨i, pk, by omega, hp⟩

/-- Counterexample to C3 as stated: even on the empty namespace,
`get_all_public_keys` performs 102 store reads and reads slot index
`MAX_KEYS + 1 = 101`, which exceeds both stated bounds. -/
theorem C3_counterexample :
    (get_all_public_keys testExternals emptyStore).2.length = MAX_KEYS + 2 ∧
    MAX_KEYS + 1 < (get_all_public_keys testExternals emptyStore).2.length ∧
    (MAX_KEYS + 1) ∈ (get_all_public_keys testExternals emptyStore).2 := by
  refine ⟨by decide, by decide, by decide⟩

/-- Witness for the amended C3 on the one-slot namespace. -/
theorem C3_bounded_scan_witness :
    (get_all_public_keys testExternals oneSlotStore).2
      = List.range' 0 (MAX_KEYS + 2) :=
  (C3_bounded_scan testExternals oneSlotStore oneSlotStore [[97, 98, 99]] 0
    oneSlotStore_wf (fun _ _ => rfl)).1

/-! ### Claim C4 -/

/-- C4 (amended): when the free-slot scan yields `index` and the derived
key's fingerprint is already among the enumerable public keys,
`add_private_key` returns the regenerated key with the store unchanged;
when it is absent, the record is written at `index`.  The "exactly one
slot for a double add" consequence holds only when the first write lands
at an enumerable index (`index ≤ MAX_KEYS`): then a second identical add
leaves the store unchanged.  (If the first write lands above `MAX_KEYS`,
the dedup check cannot see it and a second add writes again — see the
counterexample.) -/
theorem C4_duplicate_add {PK G1 : Type} (E : Externals PK G1) (s : Store)
    (m pp ent : List Nat) (index fuel : Nat)
    (hent : bytes_from_mnemonic m = .ok ent)
    (hfree : get_free_private_key_index E s fuel 0 = some index) :
    (E.fingerprint (E.g1 (regenFromWords E m pp))
        ∈ (get_all_public_keys E s).1.map E.fingerprint →
      add_private_key E s m pp fuel = .ok (some (s, regenFromWords E m pp))) ∧
    (E.fingerprint (E.g1 (regenFromWords E m pp))
        ∉ (get_all_public_keys E s).1.map E.fingerprint →
      add_private_key E s m pp fuel =
        .ok (some (storeSet s index
          (E.g1Bytes (E.g1 (regenFromWords E m pp)) ++ ent),
          regenFromWords E m pp))) ∧
    (index ≤ MAX_KEYS →
      (E.g1Bytes (E.g1 (regenFromWords E m pp))).length = E.g1Size →
      0 < E.g1Size →
      E.g1FromBytes (E.g1Bytes (E.g1 (regenFromWords E m pp)))
        = E.g1 (regenFromWords E m pp) →
      ∀ fuel2 index2,
        get_free_private_key_index E
          (storeSet s index (E.g1Bytes (E.g1 (regenFromWords E m pp)) ++ ent))
          fuel2 0 = some index2 →
        add_private_key E
          (storeSet s index (E.g1Bytes (E.g1 (regenFromWords E m pp)) ++ ent))
          m pp fuel2 =
          .ok (some (storeSet s index
            (E.g1Bytes (E.g1 (regenFromWords E m pp)) ++ ent),
            regenFromWords E m pp))) := by
  refine ⟨?_, ?_, ?_⟩
  · intro hdup
    simp only [regenFromWords] at hdup ⊢
    rw [add_private_key_spec E s m pp fuel ent index hent hfree, if_pos hdup]
  · intro hnot
    simp only [regenFromWords] at hnot ⊢
    rw [add_private_key_spec E s m pp fuel ent index hent hfree, if_neg hnot]
  · intro hidx hlen hpos hft fuel2 index2 hfree2
    simp only [regenFromWords] at hlen hft hfree2 ⊢
    have hmem : E.fingerprint (E.g1 (E.keyGen (mnemonic_to_seed E.prf E.norm
        (joinWords E m) pp)))
        ∈ (get_all_public_keys E (storeSet s index
          (E.g1Bytes (E.g1 (E.keyGen (mnemonic_to_seed E.prf E.norm
            (joinWords E m) pp))) ++ ent))).1.map E.fingerprint := by
      apply (mem_fingerprints _ _ _).mpr
      exact ⟨index, hidx, _, ent,
        get_pk_and_entropy_storeSet_same E s index _ ent hlen hpos hft, rfl⟩
    rw [add_private_key_spec E _ m pp fuel2 ent index2 hent hfree2,
      if_pos hmem]

set_option maxRecDepth 1000000 in
/-- Witness for the amended C4: a fresh add on the empty namespace writes
the record at the free index 0. -/
theorem C4_duplicate_add_witness :
    add_private_key testExternals emptyStore zerosMnemonic [97, 98, 99] 1
      = .ok (some (storeSet emptyStore 0
          (testExternals.g1Bytes (testExternals.g1
            (regenFromWords testExternals zerosMnemonic [97, 98, 99]))
            ++ zeros16),
          regenFromWords testExternals zerosMnemonic [97, 98, 99])) :=
  (C4_duplicate_add testExternals emptyStore zerosMnemonic [97, 98, 99]
    zeros16 0 1 (by decide) (by decide)).2.1 (by decide)

/-- A namespace with every enumerable slot (0..MAX_KEYS) occupied by
pairwise distinct keys. -/
def fullStore : Store :=
  fun i => if i ≤ 100 then
    some ((i + 1) :: (List.replicate 47 0 ++ List.replicate 16 0))
  else none

/-- Record blob of the key added in the C4 counterexample. -/
def cexBlob : List Nat :=
  testExternals.g1Bytes (testExternals.g1
    (regenFromWords testExternals zerosMnemonic [97, 98, 99])) ++ zeros16

/-- `fullStore` after the first overflowing add. -/
def fullStore1 : Store := storeSet fullStore 101 cexBlob

/-- `fullStore1` after the second, identical add. -/
def fullStore2 : Store := storeSet fullStore1 102 cexBlob

set_option maxRecDepth 1000000 in
/-- Counterexample to C4 as stated: with slots 0..100 full, two adds with
the same mnemonic and passphrase both perform a store write, occupying the
two slots 101 and 102 — the first write lands above `MAX_KEYS`, where the
dedup check cannot see it. -/
theorem C4_counterexample :
    add_private_key testExternals fullStore zerosMnemonic [97, 98, 99] 102
      = .ok (some (fullStore1, abcKey)) ∧
    add_private_key testExternals fullStore1 zerosMnemonic [97, 98, 99] 103
      = .ok (some (fullStore2, abcKey)) ∧
    fullStore 101 = none ∧ fullStore1 101 = some cexBlob ∧
    fullStore1 102 = none ∧ fullStore2 101 = some cexBlob ∧
    fullStore2 102 = some cexBlob := by
  refine ⟨?_, ?_, by decide, by decide, by decide, by decide, by decide⟩
  · rw [add_private_key_spec testExternals fullStore zerosMnemonic
      [97, 98, 99] 102 zeros16 101 (by decide) (by decide),
      if_neg (by decide)]
    rfl
  · rw [add_private_key_spec testExternals fullStore1 zerosMnemonic
      [97, 98, 99] 103 zeros16 102 (by decide) (by decide),
      if_neg (by decide)]
    rfl

/-! ### Claim C6 -/

/-- C6: whenever `delete_all_keys` returns (for either behaviour of the
underlying store on deleting an absent slot), every slot `0 .. MAX_KEYS`
is unoccupied afterwards and a subsequent `get_all_public_keys` returns
the empty list; per-slot delete failures are swallowed. -/
theorem C6_delete_all {PK G1 : Type} (E : Externals PK G1) (raises : Bool)
    (s : Store) (fuel : Nat) (s' : Store)
    (h : delete_all_keys E raises s fuel = some s') :
    (∀ j, j ≤ MAX_KEYS → s' j = none) ∧
    (get_all_public_keys E s').1 = [] := by
  have hw := delete_all_keys_wipes E raises s fuel s' h
  refine ⟨hw, ?_⟩
  rw [get_all_public_keys_spec]
  show (slotRecords E s' (List.range' 0 (MAX_KEYS + 1))).map Prod.fst = []
  rw [List.map_eq_nil, slotRecords, List.filterMap_eq_nil]
  intro i hi
  rw [List.mem_range'] at hi
  obtain ⟨k, hk, hik⟩ := hi
  exact get_pk_and_entropy_of_none E s' i (hw i (by omega))

/-- Witness for C6: on the one-slot namespace, with a store that raises on
deleting absent slots, `delete_all_keys` terminates and wipes. -/
theorem C6_delete_all_witness :
    (delete_all_keys testExternals true oneSlotStore 110).elim False
      (fun s' => (∀ j, j ≤ MAX_KEYS → s' j = none) ∧
        (get_all_public_keys testExternals s').1 = []) := by
  rcases hres : delete_all_keys testExternals true oneSlotStore 110
    with _ | s'
  · have hsome : (delete_all_keys testExternals true oneSlotStore
        110).isSome = true := by decide
    rw [hres] at hsome
    exact Bool.noConfusion hsome
  · exact C6_delete_all testExternals true oneSlotStore 110 s' hres

/-! ### Claim C7 -/

/-- C7: when the free-slot scan yields `index` and the new key's
fingerprint is not already enumerable, the slot chosen is the smallest
unoccupied index (every smaller slot is occupied), the record is written
exactly there, and all other slots are untouched. -/
theorem C7_lowest_free_slot {PK G1 : Type} (E : Externals PK G1) (s : Store)
    (m pp ent : List Nat) (index fuel : Nat)
    (hent : bytes_from_mnemonic m = .ok ent)
    (hfree : get_free_private_key_index E s fuel 0 = some index)
    (hnot : E.fingerprint (E.g1 (regenFromWords E m pp))
      ∉ (get_all_public_keys E s).1.map E.fingerprint) :
    get_pk_and_entropy E s index = none ∧
    (∀ j, j < index → get_pk_and_entropy E s j ≠ none) ∧
    add_private_key E s m pp fuel =
      .ok (some (storeSet s index
        (E.g1Bytes (E.g1 (regenFromWords E m pp)) ++ ent),
        regenFromWords E m pp)) ∧
    storeSet s index (E.g1Bytes (E.g1 (regenFromWords E m pp)) ++ ent) index
      = some (E.g1Bytes (E.g1 (regenFromWords E m pp)) ++ ent) ∧
    (∀ j, j ≠ index →
      storeSet s index (E.g1Bytes (E.g1 (regenFromWords E m pp)) ++ ent) j
        = s j) := by
  obtain ⟨h1, h2, h3, h4⟩ := get_free_private_key_index_spec E s fuel 0 index
    hfree
  refine ⟨h3, fun j hj => h4 j (Nat.zero_le j) hj, ?_, ?_, ?_⟩
  · simp only [regenFromWords] at hnot ⊢
    rw [add_private_key_spec E s m pp fuel ent index hent hfree, if_neg hnot]
  · simp [storeSet]
  · intro j hj
    simp [storeSet, hj]

/-- Namespace with three keys in slots 0, 1, 2. -/
def threeStore : Store :=
  fun i => if i ≤ 2 then
    some ((i + 1) :: (List.replicate 47 0 ++ List.replicate 16 0))
  else none

/-- Fingerprint of the key stored in slot 1 of `threeStore`. -/
def fp2 : Nat := bytesToWord (2 :: List.replicate 47 0)

/-- `threeStore` after deleting the second key by fingerprint. -/
def deletedStore : Store :=
  (delete_key_by_fingerprint testExternals threeStore fp2).1

set_option maxRecDepth 1000000 in
/-- Witness for C7: after adding three keys at 0, 1, 2 and deleting the
second by fingerprint, a subsequent add writes at the freed index 1. -/
theorem C7_lowest_free_slot_witness :
    get_pk_and_entropy testExternals deletedStore 1 = none ∧
    (∀ j, j < 1 → get_pk_and_entropy testExternals deletedStore j ≠ none) ∧
    add_private_key testExternals deletedStore zerosMnemonic [97, 98, 99] 4 =
      .ok (some (storeSet deletedStore 1
        (testExternals.g1Bytes (testExternals.g1
          (regenFromWords testExternals zerosMnemonic [97, 98, 99]))
          ++ zeros16),
        regenFromWords testExternals zerosMnemonic [97, 98, 99])) ∧
    storeSet deletedStore 1
        (testExternals.g1Bytes (testExternals.g1
          (regenFromWords testExternals zerosMnemonic [97, 98, 99]))
          ++ zeros16) 1
      = some (testExternals.g1Bytes (testExternals.g1
          (regenFromWords testExternals zerosMnemonic [97, 98, 99]))
          ++ zeros16) ∧
    (∀ j, j ≠ 1 →
      storeSet deletedStore 1
        (testExternals.g1Bytes (testExternals.g1
          (regenFromWords testExternals zerosMnemonic [97, 98, 99]))
          ++ zeros16) j = deletedStore j) :=
  C7_lowest_free_slot testExternals deletedStore zerosMnemonic [97, 98, 99]
    zeros16 1 4 (by decide) (by decide) (by decide)

/-! ### Claim C9 -/

/-- C9: a stored key is invisible to `get_first_private_key` and
`get_all_private_keys` when no candidate passphrase regenerates any
stored public key, and visible — for whichever candidate matches,
regardless of its position in the list — as the pair
`(regenerated key, entropy)` whenever a matching candidate is present. -/
theorem C9_passphrase_visibility {PK G1 : Type} (E : Externals PK G1)
    (s : Store) (pps : List (List Nat)) (hwf : EntropiesEncode E s) :
    ((∀ i pk ent ws pp, get_pk_and_entropy E s i = some (pk, ent) →
        bytes_to_mnemonic ent = .ok ws → pp ∈ pps →
        ppMatches E pk ws pp = false) →
      (get_first_private_key E s pps).1 = .ok none ∧
      (get_all_private_keys E s pps).1 = .ok []) ∧
    (∀ i pk ent ws pp, i ≤ MAX_KEYS →
      get_pk_and_entropy E s i = some (pk, ent) →
      bytes_to_mnemonic ent = .ok ws → pp ∈ pps →
      ppMatches E pk ws pp = true →
      (∃ r, (get_first_private_key E s pps).1 = .ok (some r)) ∧
      ∀ l, (get_all_private_keys E s pps).1 = .ok l →
        (regenFromWords E ws pp, ent) ∈ l) := by
  have hwf1 : (get_first_private_key E s pps).1 =
      (get_first_private_key_loop E s pps (MAX_KEYS + 1) 0
        (get_pk_and_entropy E s 0)).1 := by
    simp only [get_first_private_key]
  have hwa : (get_all_private_keys E s pps).1 =
      (get_all_private_keys_loop E s pps (MAX_KEYS + 1) 0
        (get_pk_and_entropy E s 0)).1 := by
    simp only [get_all_private_keys]
  constructor
  · intro hall
    have hnil : slotPrivateKeys E s pps (List.range' 0 (MAX_KEYS + 1)) = [] := by
      apply List.eq_nil_iff_forall_not_mem.mpr
      rintro ⟨key, ent⟩ hmem
      obtain ⟨i, hi, pk, ws, pp, hp, hws, hppin, hmatch, hkey⟩ :=
        (mem_slotPrivateKeys E s pps _ key ent).mp hmem
      rw [hall i pk ent ws pp hp hws hppin] at hmatch
      exact Bool.noConfusion hmatch
    constructor
    · rw [hwf1, get_first_private_key_loop_spec E s pps hwf, hnil]
      rfl
    · rw [hwa, get_all_private_keys_loop_spec E s pps hwf]
      show Except.ok (slotPrivateKeys E s pps (List.range' 0 (MAX_KEYS + 1)))
        = Except.ok ([] : List (PK × List Nat))
      rw [hnil]
  · intro i pk ent ws pp hi hp hws hppin hmatch
    have hmem : (regenFromWords E ws pp, ent) ∈
        slotPrivateKeys E s pps (List.range' 0 (MAX_KEYS + 1)) :=
      (mem_slotPrivateKeys E s pps _ _ ent).mpr
        ⟨i, by rw [List.mem_range']; exact ⟨i, by omega, by omega⟩,
         pk, ws, pp, hp, hws, hppin, hmatch, rfl⟩
    constructor
    · rw [hwf1, get_first_private_key_loop_spec E s pps hwf]
      cases hcase : slotPrivateKeys E s pps (List.range' 0 (MAX_KEYS + 1)) with
      | nil => rw [hcase] at hmem; cases hmem
      | cons a t => exact ⟨a, rfl⟩
    · intro l hl
      rw [hwa, get_all_private_keys_loop_spec E s pps hwf] at hl
      injection hl with hl
      rw [← hl]
      exact hmem

set_option maxRecDepth 1000000 in
/-- Witness for C9: the key stored under passphrase `"abc"` is found when
`"abc"` is among the candidates. -/
theorem C9_passphrase_visibility_witness :
    (∃ r, (get_first_private_key testExternals oneSlotStore
      [[97, 98, 99]]).1 = .ok (some r)) ∧
    ∀ l, (get_all_private_keys testExternals oneSlotStore
        [[97, 98, 99]]).1 = .ok l →
      (regenFromWords testExternals zerosMnemonic [97, 98, 99], zeros16) ∈ l :=
  (C9_passphrase_visibility testExternals oneSlotStore [[97, 98, 99]]
    oneSlotStore_wf).2 0 abcPk zeros16 zerosMnemonic [97, 98, 99]
    (by decide) (by decide) (by decide) (by decide) (by decide)

/-! ### Claim C10 -/

/-- C10: the free-slot scan of `add_private_key` is not bounded by
`MAX_KEYS`: with every slot `0 .. MAX_KEYS` occupied and a fresh
fingerprint, the record is still written, at the first free index, which
lies above `MAX_KEYS`; the write is invisible to `get_all_public_keys`;
and the scan terminates exactly when some free slot exists in the
scanned window. -/
theorem C10_add_unbounded {PK G1 : Type} (E : Externals PK G1) (s : Store)
    (m pp ent : List Nat) (index fuel : Nat)
    (hent : bytes_from_mnemonic m = .ok ent)
    (hfree : get_free_private_key_index E s fuel 0 = some index)
    (hfull : ∀ j, j ≤ MAX_KEYS → get_pk_and_entropy E s j ≠ none)
    (hnot : E.fingerprint (E.g1 (regenFromWords E m pp))
      ∉ (get_all_public_keys E s).1.map E.fingerprint) :
    MAX_KEYS < index ∧
    add_private_key E s m pp fuel =
      .ok (some (storeSet s index
        (E.g1Bytes (E.g1 (regenFromWords E m pp)) ++ ent),
        regenFromWords E m pp)) ∧
    (get_all_public_keys E (storeSet s index
        (E.g1Bytes (E.g1 (regenFromWords E m pp)) ++ ent))).1
      = (get_all_public_keys E s).1 ∧
    (∀ fuel2, (∀ j, j < fuel2 → get_pk_and_entropy E s j ≠ none) →
      get_free_private_key_index E s fuel2 0 = none) ∧
    (∀ fuel2 i, i < fuel2 → get_pk_and_entropy E s i = none →
      (get_free_private_key_index E s fuel2 0).isSome) := by
  obtain ⟨h1, h2, h3, h4⟩ := get_free_private_key_index_spec E s fuel 0 index
    hfree
  have hgt : MAX_KEYS < index := by
    rcases Nat.lt_or_ge MAX_KEYS index with h | h
    · exact h
    · exact absurd h3 (hfull index h)
  have hag : ∀ j, j ≤ MAX_KEYS →
      storeSet s index (E.g1Bytes (E.g1 (regenFromWords E m pp)) ++ ent) j
        = s j := by
    intro j hj
    have hne : j ≠ index := by omega
    simp [storeSet, hne]
  refine ⟨hgt, ?_, ?_, ?_, ?_⟩
  · simp only [regenFromWords] at hnot ⊢
    rw [add_private_key_spec E s m pp fuel ent index hent hfree, if_neg hnot]
  · have h0 : get_pk_and_entropy E
        (storeSet s index (E.g1Bytes (E.g1 (regenFromWords E m pp)) ++ ent)) 0
        = get_pk_and_entropy E s 0 :=
      get_pk_and_entropy_congr E _ s 0 (hag 0 (by omega))
    have hc : get_all_public_keys E
        (storeSet s index (E.g1Bytes (E.g1 (regenFromWords E m pp)) ++ ent))
        = get_all_public_keys E s := by
      simp only [get_all_public_keys]
      rw [h0, get_all_public_keys_loop_congr E _ s hag (MAX_KEYS + 1) 0
        (get_pk_and_entropy E s 0) (by omega)]
    exact congrArg Prod.fst hc
  · intro fuel2 hall
    rcases hscan : get_free_private_key_index E s fuel2 0 with _ | i
    · rfl
    · obtain ⟨g1, g2, g3, g4⟩ := get_free_private_key_index_spec E s fuel2 0 i
        hscan
      exact absurd g3 (hall i (by omega))
  · intro fuel2 i hlt hnone
    exact get_free_private_key_index_isSome E s fuel2 0 i (Nat.zero_le i)
      (by omega) hnone

set_option maxRecDepth 1000000 in
/-- Witness for C10 on the full namespace: the add lands at index 101 and
is invisible to the enumeration. -/
theorem C10_add_unbounded_witness :
    MAX_KEYS < 101 ∧
    add_private_key testExternals fullStore zerosMnemonic [97, 98, 99] 102 =
      .ok (some (fullStore1, abcKey)) ∧
    (get_all_public_keys testExternals fullStore1).1
      = (get_all_public_keys testExternals fullStore).1 ∧
    (∀ fuel2, (∀ j, j < fuel2 →
        get_pk_and_entropy testExternals fullStore j ≠ none) →
      get_free_private_key_index testExternals fullStore fuel2 0 = none) ∧
    (∀ fuel2 i, i < fuel2 →
      get_pk_and_entropy testExternals fullStore i = none →
      (get_free_private_key_index testExternals fullStore fuel2 0).isSome) :=
  C10_add_unbounded testExternals fullStore zerosMnemonic [97, 98, 99]
    zeros16 101 102 (by decide) (by decide) (by decide) (by decide)
